import Mathlib

/-!
Verification development for the universal-startup-manager core
(src/main.rs): record model, desktop-file parser, writer, path guard,
collection filter, slugify, and the mutating operations.

Rust strings are modelled as `List Char`; Rust `Vec` as `List`;
fallible filesystem calls as explicit outcome parameters; the
temp-file-plus-rename write as an atomic update of an abstract disk map.
-/

set_option autoImplicit false

namespace USM

/-- Character-list model of a Rust string slice. -/
abbrev Str := List Char

/-- Model of Rust `str::trim`: drop whitespace from both ends. -/
def trim (l : Str) : Str :=
  ((l.dropWhile Char.isWhitespace).reverse.dropWhile Char.isWhitespace).reverse

/-- Model of Rust `str::split_once('=')`: split at the first equals sign. -/
def splitOnceEq : Str → Option (Str × Str)
  | [] => none
  | c :: rest =>
    if c = '=' then some ([], rest)
    else
      match splitOnceEq rest with
      | none => none
      | some (a, b) => some (c :: a, b)

/-- Model of Rust `str::strip_prefix`: remove a leading pattern if present. -/
def stripPre : Str → Str → Option Str
  | [], l => some l
  | _ :: _, [] => none
  | p :: ps, c :: cs => if c = p then stripPre ps cs else none

/-- Model of Rust `str::strip_suffix(']')`: remove one trailing bracket. -/
def stripSuffixBr (l : Str) : Option Str :=
  if l.getLast? = some ']' then some l.dropLast else none

/-- Model of Rust `str::starts_with` on a string pattern. -/
def starts_with : Str → Str → Bool
  | [], _ => true
  | _ :: _, [] => false
  | p :: ps, c :: cs => c = p && starts_with ps cs

/-- A bracket character, for `trim_matches(&['[', ']'])`. -/
def isBracket (c : Char) : Bool := c = '[' || c = ']'

/-- Model of `trim_matches(&['[', ']'])`: strip all brackets from both ends. -/
def trimBrackets (l : Str) : Str :=
  ((l.dropWhile (isBracket ·)).reverse.dropWhile (isBracket ·)).reverse

/-- A line is a section header when its trimmed form starts with an opening
bracket and ends with a closing one (`trimmed.starts_with('[') && trimmed.ends_with(']')`). -/
def isHeaderLine (raw : Str) : Bool :=
  let t := trim raw
  t.head? = some '[' && t.getLast? = some ']'

/-- Strip one trailing carriage return, as Rust `str::lines` does for
lines terminated by a carriage-return/line-feed pair. -/
def stripCR (l : Str) : Str :=
  if l.getLast? = some '\r' then l.dropLast else l

/-- Split a character list at every newline character. -/
def splitNL : Str → List Str
  | [] => [[]]
  | c :: rest =>
    if c = '\n' then [] :: splitNL rest
    else
      match splitNL rest with
      | [] => [[c]]
      | l :: ls => (c :: l) :: ls

/-- Every piece but the last carried a newline terminator: strip its
carriage return; a final empty piece (trailing newline) yields no line. -/
def rustLinesAux : List Str → List Str
  | [] => []
  | [last] => if last = [] then [] else [last]
  | p :: rest => stripCR p :: rustLinesAux rest

/-- Model of Rust `str::lines` over the whole file content. -/
def rustLines (s : Str) : List Str := rustLinesAux (splitNL s)

/-- Join lines with newline separators (`Vec::join("\n")`). -/
def joinNL : List Str → Str
  | [] => []
  | [l] => l
  | l :: ls => l ++ '\n' :: joinNL ls

/-- `StartupSource` from src/main.rs. -/
inductive StartupSource
  | UserAutostart
  | SystemAutostart
  | ShellProfile
  | Unknown
deriving DecidableEq

/-- `StartupEntry` from src/main.rs: the record model. -/
structure StartupEntry where
  name : Str
  command : Str
  enabled : Bool
  source : StartupSource
  path : Option Str
  extra : List (Str × Str)
  localized_names : List (Str × Str)
  entry_comments : List Str
  preamble : List Str
  other_groups : List (List Str)
deriving DecidableEq

/-- Mutable locals of `parse_desktop_file`, threaded through the line scan. -/
structure ParseState where
  name : Str
  command : Str
  enabled : Bool
  extra : List (Str × Str)
  localized_names : List (Str × Str)
  entry_comments : List Str
  preamble : List Str
  other_groups : List (List Str)
  current_group : Option Str
  current_other : List Str
deriving DecidableEq

/-- The group name of the primary section. -/
def desktopEntry : Str := "Desktop Entry".toList

/-- Initial parser state (`Unnamed` name, empty command, enabled). -/
def initState : ParseState where
  name := "Unnamed".toList
  command := []
  enabled := true
  extra := []
  localized_names := []
  entry_comments := []
  preamble := []
  other_groups := []
  current_group := none
  current_other := []

/-- On a header line, flush the buffered block of the previous group
(non-primary, non-empty blocks go to `other_groups`; with no open group the
buffer would join the preamble). -/
def closeForHeader (s : ParseState) : ParseState :=
  match s.current_group with
  | some g =>
    { s with
      other_groups :=
        if g ≠ desktopEntry ∧ s.current_other ≠ [] then
          s.other_groups ++ [s.current_other]
        else s.other_groups
      current_other := [] }
  | none =>
    { s with
      preamble :=
        if s.current_other ≠ [] then s.preamble ++ s.current_other else s.preamble
      current_other := [] }

/-- Key/value dispatch inside the primary section of `parse_desktop_file`. -/
def parseKV (s : ParseState) (key value : Str) : ParseState :=
  if key = "Name".toList then { s with name := value }
  else
    match stripPre "Name[".toList key with
    | some rest =>
      match stripSuffixBr rest with
      | some localeKey =>
        { s with localized_names := s.localized_names ++ [(localeKey, value)] }
      | none => s
    | none =>
      if key = "Exec".toList then { s with command := value }
      else if key = "Hidden".toList then { s with enabled := !(value == "true".toList) }
      else if key = "X-GNOME-Autostart-enabled".toList then
        { s with enabled := (value == "true".toList) }
      else { s with extra := s.extra ++ [(key, value)] }

/-- A non-header line inside the primary section: comment/blank lines are
collected, lines without an equals sign are skipped, the rest dispatch by key. -/
def parseEntryLine (s : ParseState) (raw trimmed : Str) : ParseState :=
  if trimmed.head? = some '#' ∨ trimmed = [] then
    { s with entry_comments := s.entry_comments ++ [raw] }
  else
    match splitOnceEq raw with
    | none => s
    | some (k, v) => parseKV s (trim k) (trim v)

/-- One step of the line scan of `parse_desktop_file`. -/
def parseLine (s : ParseState) (raw : Str) : ParseState :=
  let trimmed := trim raw
  if trimmed.head? = some '[' ∧ trimmed.getLast? = some ']' then
    let s := closeForHeader s
    let groupName := trimBrackets trimmed
    let s := { s with current_group := some groupName }
    if groupName = desktopEntry then s
    else { s with current_other := s.current_other ++ [raw] }
  else
    match s.current_group with
    | none => { s with preamble := s.preamble ++ [raw] }
    | some g =>
      if g = desktopEntry then parseEntryLine s raw (trim raw)
      else { s with current_other := s.current_other ++ [raw] }

/-- End-of-input flush of `parse_desktop_file`. -/
def parseFinish (s : ParseState) : ParseState :=
  match s.current_group with
  | some g =>
    if g ≠ desktopEntry ∧ s.current_other ≠ [] then
      { s with other_groups := s.other_groups ++ [s.current_other] }
    else s
  | none =>
    if s.current_other ≠ [] then
      { s with preamble := s.preamble ++ s.current_other }
    else s

/-- `parse_desktop_file` from src/main.rs, with the file content supplied
directly (the surrounding read is I/O). -/
def parse_desktop_file (source : StartupSource) (path : Str) (content : Str) :
    StartupEntry :=
  let s := parseFinish ((rustLines content).foldl parseLine initState)
  { name := s.name
    command := s.command
    enabled := s.enabled
    source := source
    path := some path
    extra := s.extra
    localized_names := s.localized_names
    entry_comments := s.entry_comments
    preamble := s.preamble
    other_groups := s.other_groups }

/-- The dedicated keys skipped when writing `extra` back
(`known` array in `write_desktop_entry`). -/
def knownKeys : List Str :=
  ["Name".toList, "Exec".toList, "Hidden".toList,
   "X-GNOME-Autostart-enabled".toList, "Type".toList]

/-- The unrecognized-field lines emitted by `write_desktop_entry`: pairs whose
key is a known key or a locale-suffixed name key are skipped. -/
def extraLines (extra : List (Str × Str)) : List Str :=
  extra.foldl
    (fun acc p =>
      if knownKeys.contains p.1 || starts_with "Name[".toList p.1 then acc
      else acc ++ [p.1 ++ '=' :: p.2])
    []

/-- `group.last().map(|s| s.is_empty()).unwrap_or(true)` from the writer. -/
def lastIsEmpty (g : List Str) : Bool :=
  match g.getLast? with
  | some l => l.isEmpty
  | none => true

/-- The other-section blocks laid out in order, with a blank separator after
every non-final block that does not already end in a blank line. -/
def groupLines : List (List Str) → List Str
  | [] => []
  | [g] => g
  | g :: gs => (g ++ if lastIsEmpty g then [] else [[]]) ++ groupLines gs

/-- The line list assembled by `write_desktop_entry` before joining. -/
def renderLines (e : StartupEntry) : List Str :=
  let l1 :=
    e.preamble ++
      (if (e.preamble.getLast?.map (fun s => !s.isEmpty)).getD false then [([] : Str)]
       else [])
  let l6 :=
    l1 ++ ["[Desktop Entry]".toList] ++ e.entry_comments ++
      ["Type=Application".toList, "Name=".toList ++ e.name] ++
      e.localized_names.map (fun p => "Name[".toList ++ p.1 ++ ']' :: '=' :: p.2) ++
      ["Exec=".toList ++ e.command,
       "X-GNOME-Autostart-enabled=".toList ++
         (if e.enabled then "true".toList else "false".toList),
       "Hidden=".toList ++
         (if e.enabled then "false".toList else "true".toList)] ++
      extraLines e.extra
  let l7 :=
    l6 ++ (if ¬ e.other_groups.isEmpty ∧ ¬ lastIsEmpty l6 then [([] : Str)] else [])
  l7 ++ groupLines e.other_groups

/-- The file text produced by `write_desktop_entry`: joined lines, with one
newline appended unless the final line is already empty. -/
def render_desktop_entry (e : StartupEntry) : Str :=
  let lines := renderLines e
  if (lines.getLast?.map List.isEmpty).getD false then joinNL lines
  else joinNL lines ++ ['\n']

/-- `FilterState` from src/main.rs. -/
structure FilterState where
  show_enabled : Bool
  show_disabled : Bool
  show_user : Bool
  show_system : Bool
deriving DecidableEq

/-- The per-record predicate of `apply_filter`. -/
def filterPred (f : FilterState) (e : StartupEntry) : Bool :=
  ((f.show_enabled && e.enabled)
    || (f.show_disabled && !e.enabled)
    || (!f.show_enabled && !f.show_disabled))
  &&
  ((f.show_user && (e.source = StartupSource.UserAutostart))
    || (f.show_system && (e.source = StartupSource.SystemAutostart))
    || (!f.show_user && !f.show_system))

/-- The enumerate-filter-collect loop of `apply_filter`, with the running
index made explicit. -/
def applyFilterAux (f : FilterState) : Nat → List StartupEntry → List Nat
  | _, [] => []
  | i, e :: rest =>
    if filterPred f e then i :: applyFilterAux f (i + 1) rest
    else applyFilterAux f (i + 1) rest

/-- `apply_filter` from src/main.rs: indices of the records that pass. -/
def apply_filter (entries : List StartupEntry) (f : FilterState) : List Nat :=
  applyFilterAux f 0 entries

/-- One step of the `slugify` character loop. -/
def slugStep (out : Str) (c : Char) : Str :=
  if c.isAlphanum then out ++ [c.toLower]
  else if c.isWhitespace || c = '-' || c = '_' then
    (if out.getLast? = some '-' then out else out ++ ['-'])
  else out

/-- `slugify` from src/main.rs. -/
def slugify (name : Str) : Str :=
  let out := name.foldl slugStep []
  if out = [] then "entry".toList else out

/-- The two file-type bits `validate_user_entry_path` reads from
`fs::symlink_metadata`. -/
structure FileMeta where
  isSymlink : Bool
  isFile : Bool
deriving DecidableEq

/-- Abstract filesystem oracle: canonicalization, lstat metadata and the
parent of a path, as observed by the path guard. -/
structure FsModel where
  canonicalize : Str → Option Str
  symlinkMeta : Str → Option FileMeta
  parentOf : Str → Option Str

/-- The failure cases of `validate_user_entry_path`, one per bail site
(the two canonicalize calls propagate I/O errors). -/
inductive GuardError
  | resolveBase
  | resolveParent
  | outsideUserDir
  | symlinkEntry
  | notRegularFile
deriving DecidableEq

/-- `validate_user_entry_path` from src/main.rs, over the filesystem oracle:
canonicalize the trusted base and the candidate's parent, require them equal,
then reject an existing entry that is a symlink or not a regular file. -/
def validate_user_entry_path (fs : FsModel) (base : Str) (path : Str) :
    Except GuardError Str :=
  match fs.canonicalize base with
  | none => .error .resolveBase
  | some baseCanon =>
    match fs.canonicalize ((fs.parentOf path).getD ".".toList) with
    | none => .error .resolveParent
    | some parentCanon =>
      if parentCanon ≠ baseCanon then .error .outsideUserDir
      else
        match fs.symlinkMeta path with
        | some meta =>
          if meta.isSymlink then .error .symlinkEntry
          else if ¬ meta.isFile then .error .notRegularFile
          else .ok path
        | none => .ok path

/-- Abstract on-disk state: file path to file content. -/
def Disk : Type := Str → Option Str

/-- Atomic full-file replacement (`NamedTempFile` write plus `persist`). -/
def diskWrite (d : Disk) (p : Str) (content : Str) : Disk :=
  fun q => if q = p then some content else d q

/-- `fs::remove_file`. -/
def diskRemove (d : Disk) (p : Str) : Disk :=
  fun q => if q = p then none else d q

/-- `PathBuf::join` with a single component. -/
def path_join (dir file : Str) : Str := dir ++ '/' :: file

/-- Error cases surfaced by the mutating operations. -/
inductive OpError
  | noSelection
  | invalidSelection
  | invalidOperation
  | noPath
  | guard (g : GuardError)
  | ioError
deriving DecidableEq

/-- Result of a mutating operation: the error (if any), the in-memory
collection afterwards, and the on-disk state afterwards. -/
structure OpOutcome where
  error : Option OpError
  entries : List StartupEntry
  disk : Disk

/-- `toggle_selected` from src/main.rs.  `writeOk` is the outcome of the
fallible file write, `reload` the outcome of the final `refresh_entries`
(`none` when reloading fails, in which case the Rust state keeps whatever the
operation left in memory). -/
def toggle_selected (fs : FsModel) (base : Str) (writeOk : Bool)
    (reload : Option (List StartupEntry)) (entries : List StartupEntry)
    (selected : Option Nat) (disk : Disk) : OpOutcome :=
  match selected with
  | none => ⟨some .noSelection, entries, disk⟩
  | some idx =>
    match entries[idx]? with
    | none => ⟨some .invalidSelection, entries, disk⟩
    | some entry =>
      if entry.source ≠ StartupSource.UserAutostart then
        ⟨some .invalidOperation, entries, disk⟩
      else
        let path :=
          entry.path.getD (path_join base (slugify entry.name ++ ".desktop".toList))
        match validate_user_entry_path fs base path with
        | .error g => ⟨some (.guard g), entries, disk⟩
        | .ok path =>
          let entry' := { entry with enabled := !entry.enabled }
          let entries' := entries.set idx entry'
          if writeOk then
            let disk' := diskWrite disk path (render_desktop_entry entry')
            match reload with
            | none => ⟨some .ioError, entries', disk'⟩
            | some loaded => ⟨none, loaded, disk'⟩
          else ⟨some .ioError, entries', disk⟩

/-- `delete_selected` from src/main.rs.  `removeOk` is the outcome of
`fs::remove_file`, `reload` of the final `refresh_entries`. -/
def delete_selected (fs : FsModel) (base : Str) (removeOk : Bool)
    (reload : Option (List StartupEntry)) (entries : List StartupEntry)
    (selected : Option Nat) (disk : Disk) : OpOutcome :=
  match selected with
  | none => ⟨some .noSelection, entries, disk⟩
  | some idx =>
    match entries[idx]? with
    | none => ⟨some .invalidSelection, entries, disk⟩
    | some entry =>
      if entry.source ≠ StartupSource.UserAutostart then
        ⟨some .invalidOperation, entries, disk⟩
      else
        match entry.path with
        | none => ⟨some .noPath, entries, disk⟩
        | some path0 =>
          match validate_user_entry_path fs base path0 with
          | .error g => ⟨some (.guard g), entries, disk⟩
          | .ok path =>
            if removeOk then
              let disk' := diskRemove disk path
              match reload with
              | none => ⟨some .ioError, entries, disk'⟩
              | some loaded => ⟨none, loaded, disk'⟩
            else ⟨some .ioError, entries, disk⟩

/-- `edit_user_entry` from src/main.rs: write the updated record to its
target path, then best-effort remove the old file when the target moved
(removal errors are ignored; `removeOldOk` is that removal's outcome). -/
def edit_user_entry (fs : FsModel) (base : Str) (writeOk removeOldOk : Bool)
    (original : StartupEntry) (newName newCmd : Str)
    (originalPath : Option Str) (disk : Disk) : Option OpError × Disk :=
  let updated := { original with name := newName, command := newCmd }
  let targetPath :=
    originalPath.getD (path_join base (slugify newName ++ ".desktop".toList))
  match validate_user_entry_path fs base targetPath with
  | .error g => (some (.guard g), disk)
  | .ok targetPath =>
    if writeOk then
      let disk1 := diskWrite disk targetPath (render_desktop_entry updated)
      match originalPath with
      | some oldPath =>
        if oldPath ≠ targetPath then
          match validate_user_entry_path fs base oldPath with
          | .ok oldPath => (none, if removeOldOk then diskRemove disk1 oldPath else disk1)
          | .error _ => (none, disk1)
        else (none, disk1)
      | none => (none, disk1)
    else (some .ioError, disk)

/-- The edit operation as driven by `show_edit_dialog`: selection and
provenance are checked first, empty fields are rejected, then
`edit_user_entry` runs with the record's own path. -/
def edit_selected (fs : FsModel) (base : Str) (writeOk removeOldOk : Bool)
    (entries : List StartupEntry) (selected : Option Nat)
    (newName newCmd : Str) (disk : Disk) : Option OpError × Disk :=
  match selected with
  | none => (some .noSelection, disk)
  | some idx =>
    match entries[idx]? with
    | none => (some .invalidSelection, disk)
    | some entry =>
      if entry.source ≠ StartupSource.UserAutostart then (some .invalidOperation, disk)
      else if trim newName = [] ∨ trim newCmd = [] then (some .invalidOperation, disk)
      else edit_user_entry fs base writeOk removeOldOk entry newName newCmd entry.path disk

/-- Result of `create_user_entry`: error, created path, disk afterwards. -/
structure CreateOutcome where
  error : Option OpError
  path : Option Str
  disk : Disk

/-- `create_user_entry` from src/main.rs: reject empty name/command, ensure
the directory (`mkdirOk`), derive the slug path, guard it, and write. -/
def create_user_entry (fs : FsModel) (base : Str) (mkdirOk writeOk : Bool)
    (name command : Str) (disk : Disk) : CreateOutcome :=
  if trim name = [] ∨ trim command = [] then ⟨some .invalidOperation, none, disk⟩
  else if ¬ mkdirOk then ⟨some .ioError, none, disk⟩
  else
    let path := path_join base (slugify name ++ ".desktop".toList)
    match validate_user_entry_path fs base path with
    | .error g => ⟨some (.guard g), none, disk⟩
    | .ok path =>
      let entry : StartupEntry :=
        { name := name, command := command, enabled := true
          source := StartupSource.UserAutostart, path := some path
          extra := [], localized_names := [], entry_comments := []
          preamble := [], other_groups := [] }
      if writeOk then ⟨none, some path, diskWrite disk path (render_desktop_entry entry)⟩
      else ⟨some .ioError, none, disk⟩

/-! Claim-side specification definitions, written from the wording of the
spec and claims, to be compared with the source-derived functions above. -/

/-- Spec wording for one slugify character: alphanumerics are kept
lowercased, whitespace/hyphen/underscore become a hyphen, the rest is
stripped. -/
def specMapChar (c : Char) : Option Char :=
  if c.isAlphanum then some c.toLower
  else if c.isWhitespace || c = '-' || c = '_' then some '-'
  else none

/-- Collapse runs of hyphens to a single hyphen, remembering the previously
kept character. -/
def collapseAfter : Option Char → List Char → List Char
  | _, [] => []
  | prev, c :: rest =>
    if c = '-' ∧ prev = some '-' then collapseAfter prev rest
    else c :: collapseAfter (some c) rest

/-- The slug described by the spec: map characters, collapse hyphen runs,
fall back to the fixed default token when empty. -/
def slug_spec (s : Str) : Str :=
  let m := collapseAfter none (s.filterMap specMapChar)
  if m = [] then "entry".toList else m

/-- Spec wording for the enabled flag: a forward scan over the lines that
tracks the current section and, inside the primary section, assigns
`enabled := (value != "true")` on a `Hidden` key and
`enabled := (value == "true")` on an `X-GNOME-Autostart-enabled` key, so the
assignment appearing later in file order wins. -/
def enabledScanStep (st : Option Str × Bool) (raw : Str) : Option Str × Bool :=
  let t := trim raw
  if t.head? = some '[' ∧ t.getLast? = some ']' then (some (trimBrackets t), st.2)
  else
    match st.1 with
    | some g =>
      if g = desktopEntry then
        if t.head? = some '#' ∨ t = [] then st
        else
          match splitOnceEq raw with
          | none => st
          | some (k, v) =>
            if trim k = "Hidden".toList then (st.1, !(trim v == "true".toList))
            else if trim k = "X-GNOME-Autostart-enabled".toList then
              (st.1, trim v == "true".toList)
            else st
      else st
    | none => st

/-- The enabled flag predicted by the spec's scan, starting enabled. -/
def enabled_scan (content : Str) : Bool :=
  ((rustLines content).foldl enabledScanStep (none, true)).2

/-- Does any `Hidden` or `X-GNOME-Autostart-enabled` key line appear inside
the primary section?  Same line discipline as the parser. -/
def controlScanStep (st : Option Str × Bool) (raw : Str) : Option Str × Bool :=
  let t := trim raw
  if t.head? = some '[' ∧ t.getLast? = some ']' then (some (trimBrackets t), st.2)
  else
    match st.1 with
    | some g =>
      if g = desktopEntry then
        if t.head? = some '#' ∨ t = [] then st
        else
          match splitOnceEq raw with
          | none => st
          | some (k, _) =>
            if trim k = "Hidden".toList ∨ trim k = "X-GNOME-Autostart-enabled".toList then
              (st.1, true)
            else st
      else st
    | none => st

/-- True when some enabled-control key appears in the primary section. -/
def control_key_in_primary (content : Str) : Bool :=
  ((rustLines content).foldl controlScanStep (none, false)).2

/-- The state-match formula from the claim:
`(showEnabled AND enabled) OR (showDisabled AND NOT enabled) OR (NOT showEnabled AND NOT showDisabled)`. -/
def claimStateMatch (f : FilterState) (e : StartupEntry) : Prop :=
  (f.show_enabled = true ∧ e.enabled = true)
  ∨ (f.show_disabled = true ∧ e.enabled = false)
  ∨ (f.show_enabled = false ∧ f.show_disabled = false)

/-- The provenance-match formula from the claim, with the permissive
fallback when both provenance toggles are off. -/
def claimSourceMatch (f : FilterState) (e : StartupEntry) : Prop :=
  (f.show_user = true ∧ e.source = StartupSource.UserAutostart)
  ∨ (f.show_system = true ∧ e.source = StartupSource.SystemAutostart)
  ∨ (f.show_user = false ∧ f.show_system = false)

/-- The claim's list of dedicated keys: `Name`, `Exec`, `Hidden`,
`X-GNOME-Autostart-enabled`, `Type`, and any locale-suffixed name key. -/
def claimDedicatedKey (k : Str) : Bool :=
  knownKeys.contains k || starts_with "Name[".toList k

/-- Keys the parser may place in `extra`: none of the four keys with a
dedicated structured field and not a locale-suffixed name key (the `Type`
key, which the parser does not special-case, is allowed). -/
def parserFreeKey (k : Str) : Prop :=
  k ≠ "Name".toList ∧ starts_with "Name[".toList k = false
  ∧ k ≠ "Exec".toList ∧ k ≠ "Hidden".toList
  ∧ k ≠ "X-GNOME-Autostart-enabled".toList

/-- No embedded newline. -/
def noNL (l : Str) : Bool := !(l.contains '\n')

/-- A structured-field value survives a line round trip: single line and
invariant under trimming. -/
def wfField (l : Str) : Bool := noNL l && (trim l == l)

/-- A preserved-verbatim line survives Rust `str::lines`: single line, no
trailing carriage return. -/
def wfRawLine (l : Str) : Bool := noNL l && !(l.getLast? == some '\r')

/-- A localized-name pair renders to a line that reparses to itself. -/
def wfLocalized (p : Str × Str) : Bool :=
  noNL p.1 && !(p.1.contains '=') && wfField p.2

/-- An unrecognized pair renders to a key/value line that reparses to
itself: the key holds no equals sign and the rendered line is neither a
section header nor a comment. -/
def wfExtra (p : Str × Str) : Bool :=
  wfField p.1 && wfField p.2 && !(p.1.contains '=') &&
  !(isHeaderLine (p.1 ++ '=' :: p.2)) &&
  !((trim (p.1 ++ '=' :: p.2)).head? == some '#')

/-- A stored comment line really is a comment or blank line. -/
def wfComment (l : Str) : Bool :=
  wfRawLine l && ((trim l).head? == some '#' || (trim l).isEmpty)

/-- A preamble line is not itself a section header. -/
def wfPreambleLine (l : Str) : Bool := wfRawLine l && !(isHeaderLine l)

/-- An other-section block is verbatim one non-primary section: non-empty,
opened by a header line that is not the primary header, with no further
header lines inside. -/
def wfBlock (g : List Str) : Bool :=
  match g with
  | [] => false
  | hd :: tl =>
    isHeaderLine hd && wfRawLine hd &&
    !(trimBrackets (trim hd) == desktopEntry) &&
    tl.all (fun l => wfRawLine l && !(isHeaderLine l))

/-- Well-formed record for the round-trip statement: every field renders to
lines that reparse in their original roles, every non-final other-section
block ends in a blank line (so the writer inserts no separator into it) and
the final one does not (so the trailing newline does not swallow it). -/
def wf_entry (e : StartupEntry) : Bool :=
  wfField e.name && wfField e.command &&
  e.localized_names.all wfLocalized &&
  e.extra.all wfExtra &&
  e.entry_comments.all wfComment &&
  e.preamble.all wfPreambleLine &&
  e.other_groups.all wfBlock &&
  e.other_groups.dropLast.all (fun g => g.getLast? == some ([] : Str)) &&
  (match e.other_groups.getLast? with
   | none => true
   | some g => !(g.getLast? == some ([] : Str)))

/-- Number of newline characters at the very end of a text. -/
def trailingNewlines (s : Str) : Nat :=
  (s.reverse.takeWhile (fun c => c = '\n')).length

/-! Concrete fixtures used by witnesses and counterexamples. -/

/-- A minimal user record with no preserved-verbatim content. -/
def blankEntry : StartupEntry where
  name := "Sample".toList
  command := "/bin/true".toList
  enabled := true
  source := StartupSource.UserAutostart
  path := none
  extra := []
  localized_names := []
  entry_comments := []
  preamble := []
  other_groups := []

/-- A record whose single other-section block ends in two blank lines. -/
def blankLineEntry : StartupEntry :=
  { blankEntry with other_groups := [["[G]".toList, [], []]] }

/-- A record exercising every preserved field. -/
def richEntry : StartupEntry :=
  { blankEntry with
    enabled := false
    extra := [("X-Test".toList, "1".toList), ("Name".toList, "Dup".toList)]
    localized_names := [("de".toList, "Beispiel".toList)]
    entry_comments := ["# c".toList, ([] : Str)]
    preamble := ["# p".toList]
    other_groups :=
      [["[Other]".toList, "Foo=Bar".toList, ([] : Str)],
       ["[Last]".toList, "Baz=1".toList]] }

/-- The trusted user autostart directory used in fixtures. -/
def base0 : Str := "/home/u/.config/autostart".toList

/-- A file directly inside the trusted directory. -/
def fileA : Str := path_join base0 "a.desktop".toList

/-- A filesystem oracle where paths are already canonical, `fileA` has the
trusted directory as parent, and no entry exists on disk. -/
def fs0 : FsModel where
  canonicalize := fun p => some p
  symlinkMeta := fun _ => none
  parentOf := fun p => if p = fileA then some base0 else none

/-- A user-owned record stored at `fileA`. -/
def userEntry : StartupEntry := { blankEntry with path := some fileA }

/-- A system-provided record. -/
def systemEntry : StartupEntry :=
  { blankEntry with source := StartupSource.SystemAutostart, path := some fileA }

/-- An empty disk. -/
def disk0 : Disk := fun _ => none

/-! ### Helper lemmas -/

theorem char_toNat_ofNat_valid (n : Nat) (h : n.isValidChar) :
    (Char.ofNat n).toNat = n := by
  simp only [Char.ofNat, h, dif_pos, Char.ofNatAux, Char.toNat, UInt32.toNat]
  simp

theorem toLower_ne_dash (c : Char) (h : c.isAlphanum = true) : ¬ c.toLower = '-' := by
  intro he
  unfold Char.toLower at he
  by_cases hb : c.toNat ≥ 65 ∧ c.toNat ≤ 90
  · rw [if_pos hb] at he
    have hv : (c.toNat + 32).isValidChar := Or.inl (by omega)
    have h2 := congrArg Char.toNat he
    rw [char_toNat_ofNat_valid _ hv] at h2
    have h3 : ('-').toNat = 45 := rfl
    omega
  · rw [if_neg hb] at he
    rw [he] at h
    exact absurd h (by decide)

theorem stripPre_eq_some : ∀ (p l r : Str), stripPre p l = some r → l = p ++ r := by
  intro p
  induction p with
  | nil => intro l r h; simp [stripPre] at h; simp [h]
  | cons p ps ih =>
    intro l r h
    cases l with
    | nil => simp [stripPre] at h
    | cons c cs =>
      simp only [stripPre] at h
      by_cases hc : c = p
      · rw [if_pos hc] at h
        have := ih cs r h
        simp [hc, this]
      · rw [if_neg hc] at h
        exact absurd h (by simp)

theorem starts_with_false_stripPre :
    ∀ (p l : Str), starts_with p l = false ↔ stripPre p l = none := by
  intro p
  induction p with
  | nil => intro l; simp [starts_with, stripPre]
  | cons p ps ih =>
    intro l
    cases l with
    | nil => simp [starts_with, stripPre]
    | cons c cs =>
      simp only [starts_with, stripPre]
      by_cases hc : c = p
      · simp [hc, ih]
      · simp [hc, Ne.symm hc]

theorem splitOnceEq_append (k v : Str) (h : '=' ∉ k) :
    splitOnceEq (k ++ '=' :: v) = some (k, v) := by
  induction k with
  | nil => simp [splitOnceEq]
  | cons c cs ih =>
    have hc : ¬ c = '=' := by intro hc; exact h (by simp [hc])
    have hcs : '=' ∉ cs := fun hm => h (List.mem_cons_of_mem _ hm)
    simp only [List.cons_append, splitOnceEq, if_neg hc, List.append_eq, ih hcs]

theorem dropWhile_eq_self_of_head (p : Char → Bool) (l : Str) (c : Char)
    (hh : l.head? = some c) (hp : p c = false) : l.dropWhile p = l := by
  cases l with
  | nil => simp at hh
  | cons a t =>
    simp only [List.head?_cons, Option.some.injEq] at hh
    subst hh
    simp [List.dropWhile, hp]

theorem trim_eq_self (l : Str) (c d : Char) (hh : l.head? = some c)
    (hc : c.isWhitespace = false) (hl : l.getLast? = some d)
    (hd : d.isWhitespace = false) : trim l = l := by
  unfold trim
  rw [dropWhile_eq_self_of_head _ l c hh hc]
  rw [dropWhile_eq_self_of_head _ l.reverse d (by rw [List.head?_reverse]; exact hl) hd]
  exact List.reverse_reverse l

/-! ### Claim C8: slugify -/

theorem slug_fold : ∀ (s : Str) (out : Str),
    s.foldl slugStep out = out ++ collapseAfter out.getLast? (s.filterMap specMapChar) := by
  intro s
  induction s with
  | nil => intro out; simp [collapseAfter]
  | cons c cs ih =>
    intro out
    simp only [List.foldl_cons, List.filterMap_cons]
    by_cases ha : c.isAlphanum = true
    · have hmap : specMapChar c = some c.toLower := by
        unfold specMapChar; rw [if_pos ha]
      have hstep : slugStep out c = out ++ [c.toLower] := by
        unfold slugStep; rw [if_pos ha]
      rw [hstep, hmap, ih, List.getLast?_concat]
      have hne : ¬ (c.toLower = '-' ∧ out.getLast? = some '-') := by
        intro hcontra
        exact toLower_ne_dash c ha hcontra.1
      simp only [collapseAfter, if_neg hne, List.append_assoc, List.cons_append,
        List.nil_append]
    · by_cases hs : (c.isWhitespace || c = '-' || c = '_') = true
      · have hmap : specMapChar c = some '-' := by
          unfold specMapChar; rw [if_neg ha, if_pos hs]
        by_cases hlast : out.getLast? = some '-'
        · have hstep : slugStep out c = out := by
            unfold slugStep; rw [if_neg ha, if_pos hs, if_pos hlast]
          rw [hstep, hmap, ih]
          have hco : collapseAfter out.getLast? ('-' :: cs.filterMap specMapChar)
              = collapseAfter out.getLast? (cs.filterMap specMapChar) := by
            simp [collapseAfter, hlast]
          rw [hco]
        · have hstep : slugStep out c = out ++ ['-'] := by
            unfold slugStep; rw [if_neg ha, if_pos hs, if_neg hlast]
          rw [hstep, hmap, ih, List.getLast?_concat]
          simp only [collapseAfter]
          rw [if_neg (fun h => hlast h.2)]
          simp [List.append_assoc]
      · have hmap : specMapChar c = none := by
          unfold specMapChar; rw [if_neg ha, if_neg hs]
        have hstep : slugStep out c = out := by
          unfold slugStep; rw [if_neg ha, if_neg hs]
        rw [hstep, hmap, ih]

/-- Claim C8: slugify lowercases, collapses whitespace/hyphen/underscore runs
into single hyphens, strips other non-alphanumerics, and falls back to the
token "entry"; in particular on the three quoted examples. -/
theorem claim_C8_slugify :
    slugify "My App".toList = "my-app".toList
    ∧ slugify "App_123".toList = "app-123".toList
    ∧ slugify "$$$".toList = "entry".toList
    ∧ ∀ s : Str, slugify s = slug_spec s := by
  refine ⟨by decide, by decide, by decide, ?_⟩
  intro s
  unfold slugify slug_spec
  rw [slug_fold s []]
  rfl

/-! ### Claim C5: apply_filter -/

theorem applyFilterAux_mem (f : FilterState) :
    ∀ (l : List StartupEntry) (n i : Nat),
      i ∈ applyFilterAux f n l ↔
        ∃ j e, i = n + j ∧ l[j]? = some e ∧ filterPred f e = true := by
  intro l
  induction l with
  | nil => intro n i; simp [applyFilterAux]
  | cons e rest ih =>
    intro n i
    unfold applyFilterAux
    by_cases hp : filterPred f e = true
    · rw [if_pos hp]
      simp only [List.mem_cons, ih]
      constructor
      · rintro (rfl | ⟨j, e', rfl, hget, hpred⟩)
        · exact ⟨0, e, by omega, by simp, hp⟩
        · exact ⟨j + 1, e', by omega, by simpa using hget, hpred⟩
      · rintro ⟨j, e', rfl, hget, hpred⟩
        cases j with
        | zero =>
          left
          omega
        | succ j =>
          right
          exact ⟨j, e', by omega, by simpa using hget, hpred⟩
    · rw [if_neg hp]
      rw [ih]
      constructor
      · rintro ⟨j, e', rfl, hget, hpred⟩
        exact ⟨j + 1, e', by omega, by simpa using hget, hpred⟩
      · rintro ⟨j, e', rfl, hget, hpred⟩
        cases j with
        | zero =>
          simp only [List.getElem?_cons_zero, Option.some.injEq] at hget
          subst hget
          exact absurd hpred hp
        | succ j =>
          exact ⟨j, e', by omega, by simpa using hget, hpred⟩

theorem filterPred_iff (f : FilterState) (e : StartupEntry) :
    filterPred f e = true ↔ claimStateMatch f e ∧ claimSourceMatch f e := by
  simp only [filterPred, claimStateMatch, claimSourceMatch, Bool.and_eq_true,
    Bool.or_eq_true, Bool.not_eq_true', decide_eq_true_eq]
  cases e.enabled <;> cases f.show_enabled <;> cases f.show_disabled <;>
    cases f.show_user <;> cases f.show_system <;> simp

/-- Claim C5: a record index is in the filter result exactly when the
claim's state-match and provenance-match formulas both hold of the record,
and records of any other provenance are excluded whenever either provenance
toggle is on. -/
theorem claim_C5_filter :
    (∀ (entries : List StartupEntry) (f : FilterState) (i : Nat),
      i ∈ apply_filter entries f ↔
        ∃ e, entries[i]? = some e ∧ claimStateMatch f e ∧ claimSourceMatch f e)
    ∧ (∀ (entries : List StartupEntry) (f : FilterState) (i : Nat)
        (e : StartupEntry), entries[i]? = some e →
        (e.source = StartupSource.ShellProfile ∨ e.source = StartupSource.Unknown) →
        (f.show_user = true ∨ f.show_system = true) →
        i ∉ apply_filter entries f) := by
  have main : ∀ (entries : List StartupEntry) (f : FilterState) (i : Nat),
      i ∈ apply_filter entries f ↔
        ∃ e, entries[i]? = some e ∧ claimStateMatch f e ∧ claimSourceMatch f e := by
    intro entries f i
    unfold apply_filter
    rw [applyFilterAux_mem]
    constructor
    · rintro ⟨j, e, hij, hget, hpred⟩
      have hj : j = i := by omega
      subst hj
      exact ⟨e, hget, (filterPred_iff f e).1 hpred⟩
    · rintro ⟨e, hget, hm⟩
      exact ⟨i, e, by omega, hget, (filterPred_iff f e).2 hm⟩
  refine ⟨main, ?_⟩
  intro entries f i e hget hsrc hshow hmem
  rw [main] at hmem
  obtain ⟨e', hget', _, hsource⟩ := hmem
  rw [hget] at hget'
  have he : e = e' := by injection hget'
  subst he
  rcases hsource with ⟨_, hsrc'⟩ | ⟨_, hsrc'⟩ | ⟨hu, hs⟩
  · rcases hsrc with h | h <;> rw [h] at hsrc' <;> exact absurd hsrc' (by simp)
  · rcases hsrc with h | h <;> rw [h] at hsrc' <;> exact absurd hsrc' (by simp)
  · rcases hshow with h | h
    · rw [h] at hu; exact absurd hu (by simp)
    · rw [h] at hs; exact absurd hs (by simp)

/-- Closed instance of claim C5 at a concrete record list and filter. -/
theorem claim_C5_witness :
    ([userEntry, systemEntry][0]? = some userEntry)
    ∧ (0 ∈ apply_filter [userEntry, systemEntry]
        ⟨true, false, true, false⟩ ↔
        ∃ e, [userEntry, systemEntry][0]? = some e ∧
          claimStateMatch ⟨true, false, true, false⟩ e ∧
          claimSourceMatch ⟨true, false, true, false⟩ e) := by
  exact ⟨rfl, claim_C5_filter.1 [userEntry, systemEntry] ⟨true, false, true, false⟩ 0⟩

/-! ### Claim C4: path guard -/

/-- Claim C4: given that the trusted directory and the candidate's parent
both canonicalize, the guard rejects with the path-traversal error exactly
when the canonical parent differs from the canonical trusted directory;
with an existing entry it rejects with an unsafe-target error exactly when
the entry is a symlink or not a regular file; and a non-existent entry under
a correct parent is accepted. -/
theorem claim_C4_path_guard (fs : FsModel) (base path bc pc : Str)
    (hb : fs.canonicalize base = some bc)
    (hp : fs.canonicalize ((fs.parentOf path).getD ".".toList) = some pc) :
    ((validate_user_entry_path fs base path = .error .outsideUserDir) ↔ pc ≠ bc)
    ∧ (∀ m : FileMeta, pc = bc → fs.symlinkMeta path = some m →
        ((validate_user_entry_path fs base path = .error .symlinkEntry
          ∨ validate_user_entry_path fs base path = .error .notRegularFile)
         ↔ (m.isSymlink = true ∨ m.isFile = false)))
    ∧ (pc = bc → fs.symlinkMeta path = none →
        validate_user_entry_path fs base path = .ok path) := by
  cases hm : fs.symlinkMeta path with
  | none =>
    have hval : validate_user_entry_path fs base path =
        (if pc ≠ bc then .error .outsideUserDir else .ok path) := by
      simp only [validate_user_entry_path, hb, hp, hm]
    by_cases heq : pc = bc
    · rw [hval, if_neg (by simp [heq])]
      refine ⟨by simp [heq], ?_, fun _ _ => rfl⟩
      intro m _ hmm
      exact absurd hmm (by simp)
    · rw [hval, if_pos heq]
      exact ⟨by simp [heq], fun m hpc _ => absurd hpc heq, fun hpc _ => absurd hpc heq⟩
  | some meta =>
    have hval : validate_user_entry_path fs base path =
        (if pc ≠ bc then .error .outsideUserDir
         else if meta.isSymlink then .error .symlinkEntry
         else if ¬ meta.isFile then .error .notRegularFile
         else .ok path) := by
      simp only [validate_user_entry_path, hb, hp, hm]
    by_cases heq : pc = bc
    · rw [hval, if_neg (by simp [heq])]
      refine ⟨?_, ?_, ?_⟩
      · split_ifs <;> simp [heq]
      · intro m _ hmm
        have hme : meta = m := by injection hmm
        subst hme
        by_cases hsym : meta.isSymlink = true
        · simp [hsym]
        · by_cases hfile : meta.isFile = true
          · simp [hsym, hfile]
          · simp [hsym, hfile]
      · intro _ hmm
        exact absurd hmm (by simp)
    · rw [hval, if_pos heq]
      exact ⟨by simp [heq], fun m hpc _ => absurd hpc heq, fun hpc _ => absurd hpc heq⟩

/-- Closed instance of claim C4 at a concrete filesystem oracle. -/
theorem claim_C4_witness :
    fs0.canonicalize base0 = some base0
    ∧ ((validate_user_entry_path fs0 base0 fileA = .error .outsideUserDir)
        ↔ base0 ≠ base0)
    ∧ validate_user_entry_path fs0 base0 fileA = .ok fileA := by
  refine ⟨rfl, ?_, ?_⟩
  · exact (claim_C4_path_guard fs0 base0 fileA base0 base0 rfl (by decide)).1
  · exact (claim_C4_path_guard fs0 base0 fileA base0 base0 rfl (by decide)).2.2 rfl rfl

/-! ### Claim C9: provenance and emptiness checks come first -/

/-- Claim C9: toggling, deleting or editing a record whose provenance is not
user-writable fails with the invalid-operation error for every behaviour of
the filesystem oracles (so before any filesystem access or guard check), and
creation fails the same way when the trimmed name or command is empty. -/
theorem claim_C9_invalid_operation :
    (∀ (fs : FsModel) (base : Str) (writeOk : Bool)
       (reload : Option (List StartupEntry)) (entries : List StartupEntry)
       (idx : Nat) (disk : Disk) (e : StartupEntry),
       entries[idx]? = some e → e.source ≠ StartupSource.UserAutostart →
       toggle_selected fs base writeOk reload entries (some idx) disk
         = ⟨some .invalidOperation, entries, disk⟩)
    ∧ (∀ (fs : FsModel) (base : Str) (removeOk : Bool)
        (reload : Option (List StartupEntry)) (entries : List StartupEntry)
        (idx : Nat) (disk : Disk) (e : StartupEntry),
        entries[idx]? = some e → e.source ≠ StartupSource.UserAutostart →
        delete_selected fs base removeOk reload entries (some idx) disk
          = ⟨some .invalidOperation, entries, disk⟩)
    ∧ (∀ (fs : FsModel) (base : Str) (writeOk removeOldOk : Bool)
        (entries : List StartupEntry) (idx : Nat) (newName newCmd : Str)
        (disk : Disk) (e : StartupEntry),
        entries[idx]? = some e → e.source ≠ StartupSource.UserAutostart →
        edit_selected fs base writeOk removeOldOk entries (some idx) newName newCmd disk
          = (some .invalidOperation, disk))
    ∧ (∀ (fs : FsModel) (base : Str) (mkdirOk writeOk : Bool)
        (name command : Str) (disk : Disk),
        (trim name = [] ∨ trim command = []) →
        create_user_entry fs base mkdirOk writeOk name command disk
          = ⟨some .invalidOperation, none, disk⟩) := by
  refine ⟨?_, ?_, ?_, ?_⟩
  · intro fs base writeOk reload entries idx disk e hget hsrc
    simp only [toggle_selected, hget]
    rw [if_pos hsrc]
  · intro fs base removeOk reload entries idx disk e hget hsrc
    simp only [delete_selected, hget]
    rw [if_pos hsrc]
  · intro fs base writeOk removeOldOk entries idx newName newCmd disk e hget hsrc
    simp only [edit_selected, hget]
    rw [if_pos hsrc]
  · intro fs base mkdirOk writeOk name command disk h
    simp only [create_user_entry]
    rw [if_pos h]

/-- Closed instance of claim C9 at a system record and at blank inputs. -/
theorem claim_C9_witness :
    ([systemEntry][0]? = some systemEntry)
    ∧ systemEntry.source ≠ StartupSource.UserAutostart
    ∧ toggle_selected fs0 base0 true none [systemEntry] (some 0) disk0
        = ⟨some .invalidOperation, [systemEntry], disk0⟩
    ∧ delete_selected fs0 base0 true none [systemEntry] (some 0) disk0
        = ⟨some .invalidOperation, [systemEntry], disk0⟩
    ∧ edit_selected fs0 base0 true true [systemEntry] (some 0)
        "n".toList "c".toList disk0 = (some .invalidOperation, disk0)
    ∧ create_user_entry fs0 base0 true true " ".toList "c".toList disk0
        = ⟨some .invalidOperation, none, disk0⟩ := by
  refine ⟨rfl, by decide, ?_, ?_, ?_, ?_⟩
  · exact claim_C9_invalid_operation.1 fs0 base0 true none [systemEntry] 0 disk0
      systemEntry rfl (by decide)
  · exact claim_C9_invalid_operation.2.1 fs0 base0 true none [systemEntry] 0 disk0
      systemEntry rfl (by decide)
  · exact claim_C9_invalid_operation.2.2.1 fs0 base0 true true [systemEntry] 0
      "n".toList "c".toList disk0 systemEntry rfl (by decide)
  · exact claim_C9_invalid_operation.2.2.2 fs0 base0 true true
      " ".toList "c".toList disk0 (Or.inl (by decide))

/-! ### Claims C6 and C10: the enabled flag -/

theorem nameBr_ne_hidden (rest : Str) : "Name[".toList ++ rest ≠ "Hidden".toList := by
  intro h
  have h2 : ('N' :: ("ame[".toList ++ rest)) = 'H' :: "idden".toList := h
  injection h2 with h3 _
  exact absurd h3 (by decide)

theorem nameBr_ne_xg (rest : Str) :
    "Name[".toList ++ rest ≠ "X-GNOME-Autostart-enabled".toList := by
  intro h
  have h2 : ('N' :: ("ame[".toList ++ rest)) = 'X' :: "-GNOME-Autostart-enabled".toList := h
  injection h2 with h3 _
  exact absurd h3 (by decide)

theorem nameBr_ne_exec (rest : Str) : "Name[".toList ++ rest ≠ "Exec".toList := by
  intro h
  have h2 : ('N' :: ("ame[".toList ++ rest)) = 'E' :: "xec".toList := h
  injection h2 with h3 _
  exact absurd h3 (by decide)

theorem parseKV_group_enabled (s : ParseState) (key value : Str) :
    (parseKV s key value).current_group = s.current_group
    ∧ (parseKV s key value).enabled =
        (if key = "Hidden".toList then !(value == "true".toList)
         else if key = "X-GNOME-Autostart-enabled".toList then (value == "true".toList)
         else s.enabled) := by
  by_cases h1 : key = "Name".toList
  · have hred : parseKV s key value = { s with name := value } := by
      unfold parseKV
      rw [if_pos h1]
    subst h1
    rw [hred, if_neg (by decide), if_neg (by decide)]
    exact ⟨rfl, rfl⟩
  · cases hsp : stripPre "Name[".toList key with
    | some rest =>
      have hkey : key = "Name[".toList ++ rest := stripPre_eq_some _ _ _ hsp
      have hred : parseKV s key value =
          (match stripSuffixBr rest with
           | some lk => { s with localized_names := s.localized_names ++ [(lk, value)] }
           | none => s) := by
        unfold parseKV
        rw [if_neg h1, hsp]
      have hkh : key ≠ "Hidden".toList := by
        rw [hkey]; exact nameBr_ne_hidden rest
      have hkx : key ≠ "X-GNOME-Autostart-enabled".toList := by
        rw [hkey]; exact nameBr_ne_xg rest
      rw [hred, if_neg hkh, if_neg hkx]
      cases stripSuffixBr rest with
      | some lk => exact ⟨rfl, rfl⟩
      | none => exact ⟨rfl, rfl⟩
    | none =>
      have hred : parseKV s key value =
          (if key = "Exec".toList then { s with command := value }
           else if key = "Hidden".toList then
             { s with enabled := !(value == "true".toList) }
           else if key = "X-GNOME-Autostart-enabled".toList then
             { s with enabled := (value == "true".toList) }
           else { s with extra := s.extra ++ [(key, value)] }) := by
        unfold parseKV
        rw [if_neg h1, hsp]
      rw [hred]
      by_cases h2 : key = "Exec".toList
      · subst h2
        rw [if_pos rfl, if_neg (by decide), if_neg (by decide)]
        exact ⟨rfl, rfl⟩
      · rw [if_neg h2]
        by_cases h3 : key = "Hidden".toList
        · subst h3
          rw [if_pos rfl, if_pos rfl]
          exact ⟨rfl, rfl⟩
        · rw [if_neg h3, if_neg h3]
          by_cases h4 : key = "X-GNOME-Autostart-enabled".toList
          · subst h4
            rw [if_pos rfl, if_pos rfl]
            exact ⟨rfl, rfl⟩
          · rw [if_neg h4, if_neg h4]
            exact ⟨rfl, rfl⟩

theorem closeForHeader_enabled (s : ParseState) :
    (closeForHeader s).enabled = s.enabled := by
  unfold closeForHeader
  cases s.current_group <;> rfl

theorem parseLine_scan_step (s : ParseState) (raw : Str) :
    ((parseLine s raw).current_group, (parseLine s raw).enabled)
      = enabledScanStep (s.current_group, s.enabled) raw := by
  by_cases hH : (trim raw).head? = some '[' ∧ (trim raw).getLast? = some ']'
  · simp only [parseLine, enabledScanStep, if_pos hH]
    by_cases hg : trimBrackets (trim raw) = desktopEntry
    · rw [if_pos hg]
      rw [Prod.mk.injEq]
      exact ⟨rfl, closeForHeader_enabled s⟩
    · rw [if_neg hg]
      rw [Prod.mk.injEq]
      exact ⟨rfl, closeForHeader_enabled s⟩
  · cases hcg : s.current_group with
    | none => simp [parseLine, enabledScanStep, if_neg hH, hcg]
    | some g =>
      by_cases hg : g = desktopEntry
      · subst hg
        simp only [parseLine, enabledScanStep, if_neg hH, hcg, if_pos rfl,
          parseEntryLine]
        by_cases hc : (trim raw).head? = some '#' ∨ trim raw = []
        · simp [if_pos hc, hcg]
        · simp only [if_neg hc]
          cases hsp : splitOnceEq raw with
          | none => simp [hcg]
          | some kv =>
            obtain ⟨k, v⟩ := kv
            have hkv := parseKV_group_enabled s (trim k) (trim v)
            show ((parseKV s (trim k) (trim v)).current_group,
                  (parseKV s (trim k) (trim v)).enabled)
                = (if trim k = "Hidden".toList
                   then ((some desktopEntry : Option Str), !(trim v == "true".toList))
                   else if trim k = "X-GNOME-Autostart-enabled".toList
                   then ((some desktopEntry : Option Str), trim v == "true".toList)
                   else ((some desktopEntry : Option Str), s.enabled))
            rw [hkv.1, hkv.2, hcg]
            split_ifs <;> rfl
      · simp [parseLine, enabledScanStep, if_neg hH, hcg, if_neg hg]

theorem foldl_parse_scan (ls : List Str) :
    ∀ s : ParseState,
      ((ls.foldl parseLine s).current_group, (ls.foldl parseLine s).enabled)
        = ls.foldl enabledScanStep (s.current_group, s.enabled) := by
  induction ls with
  | nil => intro s; rfl
  | cons l ls ih =>
    intro s
    simp only [List.foldl_cons]
    rw [ih (parseLine s l), parseLine_scan_step s l]

theorem parseFinish_enabled (s : ParseState) :
    (parseFinish s).enabled = s.enabled := by
  cases hcg : s.current_group with
  | none =>
    simp only [parseFinish, hcg]
    by_cases h : s.current_other = []
    · simp [h]
    · simp [h]
  | some g =>
    simp only [parseFinish, hcg]
    by_cases h : g ≠ desktopEntry ∧ s.current_other ≠ []
    · simp [h]
    · simp [h]

theorem parse_enabled_eq_scan (source : StartupSource) (path content : Str) :
    (parse_desktop_file source path content).enabled = enabled_scan content := by
  unfold parse_desktop_file enabled_scan
  simp only [parseFinish_enabled]
  have h := foldl_parse_scan (rustLines content) initState
  have h2 := congrArg Prod.snd h
  simpa using h2

/-- Claim C6: the parser computes the enabled flag as a forward scan of the
primary section in which a `Hidden` key assigns `value != "true"`, an
`X-GNOME-Autostart-enabled` key assigns `value == "true"`, and the
assignment of whichever key appears later in file order is the one kept. -/
theorem claim_C6_enabled_scan (source : StartupSource) (path content : Str) :
    (parse_desktop_file source path content).enabled = enabled_scan content :=
  parse_enabled_eq_scan source path content

theorem controlScanStep_keeps_true (st : Option Str × Bool) (raw : Str)
    (h : st.2 = true) : (controlScanStep st raw).2 = true := by
  obtain ⟨g, f⟩ := st
  simp only at h
  subst h
  by_cases hH : (trim raw).head? = some '[' ∧ (trim raw).getLast? = some ']'
  · simp [controlScanStep, if_pos hH]
  · cases g with
    | none => simp [controlScanStep, if_neg hH]
    | some g0 =>
      by_cases hg : g0 = desktopEntry
      · subst hg
        simp only [controlScanStep, if_neg hH, if_pos rfl]
        by_cases hc : (trim raw).head? = some '#' ∨ trim raw = []
        · simp [if_pos hc]
        · simp only [if_neg hc]
          cases hsp : splitOnceEq raw with
          | none => rfl
          | some kv =>
            by_cases hk : trim kv.1 = "Hidden".toList
            · simp [hk]
            · by_cases hx : trim kv.1 = "X-GNOME-Autostart-enabled".toList
              · simp [hk, hx]
              · simp [hk, hx]
      · simp [controlScanStep, if_neg hH, if_neg hg]

theorem controlFold_keeps_true (ls : List Str) :
    ∀ st : Option Str × Bool, st.2 = true →
      (ls.foldl controlScanStep st).2 = true := by
  induction ls with
  | nil => intro st h; exact h
  | cons l ls ih =>
    intro st h
    exact ih _ (controlScanStep_keeps_true st l h)

theorem scan_groups_eq (raw : Str) (g : Option Str) (b f : Bool) :
    (enabledScanStep (g, b) raw).1 = (controlScanStep (g, f) raw).1 := by
  by_cases hH : (trim raw).head? = some '[' ∧ (trim raw).getLast? = some ']'
  · simp [enabledScanStep, controlScanStep, if_pos hH]
  · cases g with
    | none => simp [enabledScanStep, controlScanStep, if_neg hH]
    | some g0 =>
      by_cases hg : g0 = desktopEntry
      · subst hg
        by_cases hc : (trim raw).head? = some '#' ∨ trim raw = []
        · simp [enabledScanStep, controlScanStep, if_neg hH, if_pos hc]
        · cases hsp : splitOnceEq raw with
          | none =>
            simp [enabledScanStep, controlScanStep, if_neg hH, if_neg hc, hsp]
          | some kv =>
            have h1 : (enabledScanStep ((some desktopEntry : Option Str), b) raw).1
                = some desktopEntry := by
              simp only [enabledScanStep, if_neg hH, if_pos rfl, if_neg hc, hsp]
              split_ifs <;> rfl
            have h2 : (controlScanStep ((some desktopEntry : Option Str), f) raw).1
                = some desktopEntry := by
              simp only [controlScanStep, if_neg hH, if_pos rfl, if_neg hc, hsp]
              split_ifs <;> rfl
            rw [h1, h2]
      · simp [enabledScanStep, controlScanStep, if_neg hH, if_neg hg]

theorem enabledScanStep_of_no_control (raw : Str) (g : Option Str) (b f : Bool)
    (h : (controlScanStep (g, f) raw).2 = false) :
    (enabledScanStep (g, b) raw).2 = b := by
  by_cases hH : (trim raw).head? = some '[' ∧ (trim raw).getLast? = some ']'
  · simp [enabledScanStep, if_pos hH]
  · cases g with
    | none => simp [enabledScanStep, if_neg hH]
    | some g0 =>
      by_cases hg : g0 = desktopEntry
      · subst hg
        by_cases hc : (trim raw).head? = some '#' ∨ trim raw = []
        · simp [enabledScanStep, if_neg hH, if_pos hc]
        · cases hsp : splitOnceEq raw with
          | none => simp [enabledScanStep, if_neg hH, if_neg hc, hsp]
          | some kv =>
            have hctl : (controlScanStep ((some desktopEntry : Option Str), f) raw).2
                = (if trim kv.1 = "Hidden".toList
                   ∨ trim kv.1 = "X-GNOME-Autostart-enabled".toList then true else f) := by
              simp only [controlScanStep, if_neg hH, if_pos rfl, if_neg hc, hsp]
              split_ifs <;> rfl
            rw [hctl] at h
            by_cases hcond : trim kv.1 = "Hidden".toList
                ∨ trim kv.1 = "X-GNOME-Autostart-enabled".toList
            · rw [if_pos hcond] at h
              exact absurd h (by simp)
            · have hena : (enabledScanStep ((some desktopEntry : Option Str), b) raw).2
                  = (if trim kv.1 = "Hidden".toList then !(trim kv.2 == "true".toList)
                     else if trim kv.1 = "X-GNOME-Autostart-enabled".toList
                     then (trim kv.2 == "true".toList) else b) := by
                simp only [enabledScanStep, if_neg hH, if_pos rfl, if_neg hc, hsp]
                split_ifs <;> rfl
              rw [hena]
              push_neg at hcond
              rw [if_neg hcond.1, if_neg hcond.2]
      · simp [enabledScanStep, if_neg hH, if_neg hg]

theorem foldl_enabled_of_no_control (ls : List Str) :
    ∀ (g : Option Str) (b : Bool),
      (ls.foldl controlScanStep (g, false)).2 = false →
      (ls.foldl enabledScanStep (g, b)).2 = b := by
  induction ls with
  | nil => intro g b _; rfl
  | cons l ls ih =>
    intro g b h
    simp only [List.foldl_cons] at h ⊢
    have hstep : (controlScanStep (g, false) l).2 = false := by
      by_cases hs : (controlScanStep (g, false) l).2 = true
      · exact absurd (controlFold_keeps_true ls _ hs) (by simp [h])
      · simpa using hs
    have hpair : controlScanStep (g, false) l
        = ((controlScanStep (g, false) l).1, false) :=
      Prod.ext_iff.2 ⟨rfl, hstep⟩
    have hen : enabledScanStep (g, b) l
        = ((controlScanStep (g, false) l).1, b) :=
      Prod.ext_iff.2 ⟨scan_groups_eq l g b false,
        enabledScanStep_of_no_control l g b false hstep⟩
    rw [hen]
    rw [hpair] at h
    exact ih _ b h

/-- Claim C10: when neither enabled-control key appears in the primary
section, the parsed record is enabled. -/
theorem claim_C10_default_enabled (source : StartupSource) (path content : Str)
    (h : control_key_in_primary content = false) :
    (parse_desktop_file source path content).enabled = true := by
  rw [parse_enabled_eq_scan source path content]
  unfold enabled_scan
  unfold control_key_in_primary at h
  exact foldl_enabled_of_no_control (rustLines content) none true h

/-- Closed instance of claim C10 at a concrete control-free file. -/
theorem claim_C10_witness :
    control_key_in_primary "[Desktop Entry]\nName=A\nExec=b\n".toList = false
    ∧ (parse_desktop_file StartupSource.UserAutostart "p".toList
        "[Desktop Entry]\nName=A\nExec=b\n".toList).enabled = true := by
  refine ⟨by decide, ?_⟩
  exact claim_C10_default_enabled StartupSource.UserAutostart "p".toList
    "[Desktop Entry]\nName=A\nExec=b\n".toList (by decide)

/-! ### Claim C3: unrecognized fields -/

theorem closeForHeader_extra (s : ParseState) : (closeForHeader s).extra = s.extra := by
  unfold closeForHeader
  cases s.current_group <;> rfl

theorem parseLine_extra_subset (s : ParseState) (raw : Str) (kv : Str × Str)
    (h : kv ∈ (parseLine s raw).extra) :
    kv ∈ s.extra ∨ parserFreeKey kv.1 := by
  by_cases hH : (trim raw).head? = some '[' ∧ (trim raw).getLast? = some ']'
  · left
    have hred : (parseLine s raw).extra = s.extra := by
      simp only [parseLine, if_pos hH]
      by_cases hg : trimBrackets (trim raw) = desktopEntry
      · rw [if_pos hg]
        exact closeForHeader_extra s
      · rw [if_neg hg]
        exact closeForHeader_extra s
    rwa [hred] at h
  · cases hcg : s.current_group with
    | none =>
      left
      have hred : (parseLine s raw).extra = s.extra := by
        simp [parseLine, if_neg hH, hcg]
      rwa [hred] at h
    | some g =>
      by_cases hg : g = desktopEntry
      · subst hg
        by_cases hc : (trim raw).head? = some '#' ∨ trim raw = []
        · left
          have hred : (parseLine s raw).extra = s.extra := by
            simp [parseLine, parseEntryLine, if_neg hH, hcg, if_pos hc]
          rwa [hred] at h
        · cases hsp : splitOnceEq raw with
          | none =>
            left
            have hred : (parseLine s raw).extra = s.extra := by
              simp [parseLine, parseEntryLine, if_neg hH, hcg, if_neg hc, hsp]
            rwa [hred] at h
          | some kv2 =>
            obtain ⟨k, v⟩ := kv2
            have hpl : parseLine s raw = parseKV s (trim k) (trim v) := by
              simp [parseLine, parseEntryLine, if_neg hH, hcg, if_neg hc, hsp]
            rw [hpl] at h
            by_cases h1 : trim k = "Name".toList
            · left
              have hred : (parseKV s (trim k) (trim v)).extra = s.extra := by
                unfold parseKV
                rw [if_pos h1]
              rwa [hred] at h
            · cases hsp2 : stripPre "Name[".toList (trim k) with
              | some rest =>
                left
                have hred : (parseKV s (trim k) (trim v)).extra = s.extra := by
                  have hr : parseKV s (trim k) (trim v) =
                      (match stripSuffixBr rest with
                       | some lk =>
                         { s with localized_names :=
                             s.localized_names ++ [(lk, trim v)] }
                       | none => s) := by
                    unfold parseKV
                    rw [if_neg h1, hsp2]
                  rw [hr]
                  cases stripSuffixBr rest <;> rfl
                rwa [hred] at h
              | none =>
                have hr : parseKV s (trim k) (trim v) =
                    (if trim k = "Exec".toList then { s with command := trim v }
                     else if trim k = "Hidden".toList then
                       { s with enabled := !(trim v == "true".toList) }
                     else if trim k = "X-GNOME-Autostart-enabled".toList then
                       { s with enabled := (trim v == "true".toList) }
                     else { s with extra := s.extra ++ [(trim k, trim v)] }) := by
                  unfold parseKV
                  rw [if_neg h1, hsp2]
                rw [hr] at h
                by_cases h2 : trim k = "Exec".toList
                · rw [if_pos h2] at h
                  exact Or.inl h
                · rw [if_neg h2] at h
                  by_cases h3 : trim k = "Hidden".toList
                  · rw [if_pos h3] at h
                    exact Or.inl h
                  · rw [if_neg h3] at h
                    by_cases h4 : trim k = "X-GNOME-Autostart-enabled".toList
                    · rw [if_pos h4] at h
                      exact Or.inl h
                    · rw [if_neg h4] at h
                      have h' : kv ∈ s.extra ++ [(trim k, trim v)] := h
                      rcases List.mem_append.1 h' with hmem | hmem
                      · exact Or.inl hmem
                      · right
                        have hkv : kv = (trim k, trim v) := by simpa using hmem
                        subst hkv
                        exact ⟨h1, (starts_with_false_stripPre _ _).2 hsp2,
                          h2, h3, h4⟩
      · left
        have hred : (parseLine s raw).extra = s.extra := by
          simp [parseLine, if_neg hH, hcg, if_neg hg]
        rwa [hred] at h

theorem foldl_extra_subset (ls : List Str) :
    ∀ s : ParseState, (∀ kv ∈ s.extra, parserFreeKey kv.1) →
      ∀ kv ∈ (ls.foldl parseLine s).extra, parserFreeKey kv.1 := by
  induction ls with
  | nil => intro s hs; exact hs
  | cons l ls ih =>
    intro s hs
    refine ih (parseLine s l) ?_
    intro kv hkv
    rcases parseLine_extra_subset s l kv hkv with hmem | hfree
    · exact hs kv hmem
    · exact hfree

theorem parseFinish_extra (s : ParseState) : (parseFinish s).extra = s.extra := by
  cases hcg : s.current_group with
  | none =>
    simp only [parseFinish, hcg]
    by_cases h : s.current_other = []
    · simp [h]
    · simp [h]
  | some g =>
    simp only [parseFinish, hcg]
    by_cases h : g ≠ desktopEntry ∧ s.current_other ≠ []
    · simp [h]
    · simp [h]

theorem extraLines_eq_filter :
    ∀ (extra : List (Str × Str)) (acc : List Str),
      extra.foldl
        (fun acc p =>
          if knownKeys.contains p.1 || starts_with "Name[".toList p.1 then acc
          else acc ++ [p.1 ++ '=' :: p.2]) acc
      = acc ++ (extra.filter (fun p => !(claimDedicatedKey p.1))).map
          (fun p => p.1 ++ '=' :: p.2) := by
  intro extra
  induction extra with
  | nil => intro acc; simp
  | cons p rest ih =>
    intro acc
    simp only [List.foldl_cons, List.filter_cons]
    by_cases hp : (knownKeys.contains p.1 || starts_with "Name[".toList p.1) = true
    · rw [if_pos hp]
      have hd1 : claimDedicatedKey p.1 = true := hp
      have hd : (!(claimDedicatedKey p.1)) = false := by rw [hd1]; rfl
      rw [hd]
      simp only [Bool.false_eq_true, if_false]
      exact ih acc
    · rw [if_neg hp]
      have hd1 : claimDedicatedKey p.1 = false := Bool.eq_false_iff.mpr hp
      have hd : (!(claimDedicatedKey p.1)) = true := by rw [hd1]; rfl
      rw [hd]
      simp only [if_true]
      rw [ih (acc ++ [p.1 ++ '=' :: p.2])]
      simp [List.append_assoc]

/-- Claim C3 (amended): the parser never places `Name`, a locale-suffixed
name key, `Exec`, `Hidden` or `X-GNOME-Autostart-enabled` in
`unrecognized_fields` (it does place `Type` there), and the writer emits
exactly the unrecognized pairs whose key is not dedicated, in order. -/
theorem claim_C3_unrecognized :
    (∀ (source : StartupSource) (path content : Str) (kv : Str × Str),
      kv ∈ (parse_desktop_file source path content).extra → parserFreeKey kv.1)
    ∧ (∀ extra : List (Str × Str),
        extraLines extra
          = (extra.filter (fun p => !(claimDedicatedKey p.1))).map
              (fun p => p.1 ++ '=' :: p.2)) := by
  constructor
  · intro source path content kv hkv
    have hx : (parse_desktop_file source path content).extra
        = (parseFinish ((rustLines content).foldl parseLine initState)).extra := rfl
    rw [hx, parseFinish_extra] at hkv
    exact foldl_extra_subset (rustLines content) initState
      (by intro kv2 hkv2; exact absurd hkv2 (by simp [initState])) kv hkv
  · intro extra
    have h := extraLines_eq_filter extra []
    simpa [extraLines] using h

/-- The claim as frozen is false: parsing a file whose primary section has
the `Type=Application` marker yields `("Type", "Application")` inside
`unrecognized_fields`, and `Type` is one of the dedicated keys named by the
claim. -/
theorem claim_C3_counterexample :
    ¬ (∀ kv ∈ (parse_desktop_file StartupSource.UserAutostart "p".toList
          "[Desktop Entry]\nType=Application\n".toList).extra,
        claimDedicatedKey kv.1 = false) := by
  decide

/-- Closed instance of claim C3's parser half at a concrete file. -/
theorem claim_C3_witness :
    (("X-Test".toList, "1".toList)
        ∈ (parse_desktop_file StartupSource.UserAutostart "p".toList
            "[Desktop Entry]\nX-Test=1\n".toList).extra)
    ∧ parserFreeKey "X-Test".toList := by
  refine ⟨by decide, ?_⟩
  exact claim_C3_unrecognized.1 StartupSource.UserAutostart "p".toList
    "[Desktop Entry]\nX-Test=1\n".toList ("X-Test".toList, "1".toList) (by decide)

/-! ### Claim C7: trailing newline -/

theorem trailing_concat_nl (x : Str) :
    trailingNewlines (x ++ ['\n']) = trailingNewlines x + 1 := by
  unfold trailingNewlines
  rw [List.reverse_append]
  simp [List.takeWhile]

theorem trailing_zero (l : Str) (hne : l ≠ []) (hnl : '\n' ∉ l) :
    trailingNewlines l = 0 := by
  unfold trailingNewlines
  cases hr : l.reverse with
  | nil => exact absurd (by simpa using hr) hne
  | cons c t =>
    have hc : c ∈ l := by
      rw [← List.mem_reverse, hr]
      simp
    have hcne : ¬ (c = '\n') := fun h => hnl (h ▸ hc)
    simp [List.takeWhile, hcne]

theorem trailing_append_right (y z : Str) (hz : z ≠ [])
    (h0 : trailingNewlines z = 0) : trailingNewlines (y ++ z) = 0 := by
  unfold trailingNewlines at h0 ⊢
  rw [List.reverse_append]
  cases hr : z.reverse with
  | nil => exact absurd (by simpa using hr) hz
  | cons c t =>
    rw [hr] at h0
    by_cases hc : (c = '\n')
    · simp [List.takeWhile, hc] at h0
    · simp [List.takeWhile, hc]

theorem joinNL_cons (a : Str) (rest : List Str) (h : rest ≠ []) :
    joinNL (a :: rest) = a ++ '\n' :: joinNL rest := by
  cases rest with
  | nil => exact absurd rfl h
  | cons b B => rfl

theorem joinNL_concat : ∀ (A : List Str) (l : Str), A ≠ [] →
    joinNL (A ++ [l]) = joinNL A ++ '\n' :: l := by
  intro A
  induction A with
  | nil => intro l h; exact absurd rfl h
  | cons a A' ih =>
    intro l _
    cases A' with
    | nil => rfl
    | cons b B =>
      show joinNL (a :: ((b :: B) ++ [l])) = joinNL (a :: b :: B) ++ '\n' :: l
      rw [joinNL_cons a ((b :: B) ++ [l]) (by simp)]
      have ih2 := ih l (by simp)
      rw [ih2, joinNL_cons a (b :: B) (by simp)]
      simp

theorem joinNL_no_trailing : ∀ (A : List Str), (∀ l ∈ A, '\n' ∉ l) →
    A.getLast? ≠ some ([] : Str) → A ≠ [] →
    joinNL A ≠ [] ∧ trailingNewlines (joinNL A) = 0 := by
  intro A
  induction A with
  | nil => intro _ _ h; exact absurd rfl h
  | cons a A' ih =>
    intro hl hlast _
    cases A' with
    | nil =>
      have ha : a ≠ [] := by
        intro h
        exact hlast (by simp [h])
      exact ⟨ha, trailing_zero a ha (hl a (by simp))⟩
    | cons b B =>
      have hA'ne : (b :: B) ≠ [] := by simp
      have hlast' : (b :: B).getLast? ≠ some ([] : Str) := by
        simpa using hlast
      obtain ⟨hne', h0'⟩ :=
        ih (fun l hm => hl l (List.mem_cons_of_mem a hm)) hlast' hA'ne
      rw [joinNL_cons a (b :: B) hA'ne]
      constructor
      · simp
      · have hz : ('\n' :: joinNL (b :: B)) ≠ [] := by simp
        have h1 : trailingNewlines ('\n' :: joinNL (b :: B)) = 0 := by
          have h2 := trailing_append_right ['\n'] (joinNL (b :: B)) hne' h0'
          simpa using h2
        exact trailing_append_right a ('\n' :: joinNL (b :: B)) hz h1

theorem renderLines_two_le (e : StartupEntry) : 2 ≤ (renderLines e).length := by
  unfold renderLines
  split_ifs <;> simp [List.length_append] <;> omega

theorem render_trailing_cases (e : StartupEntry) :
    1 ≤ trailingNewlines (render_desktop_entry e)
    ∧ ((∀ l ∈ renderLines e, '\n' ∉ l) →
       ¬((renderLines e).getLast? = some ([] : Str)
         ∧ ((renderLines e).dropLast).getLast? = some ([] : Str)) →
       trailingNewlines (render_desktop_entry e) = 1) := by
  have hlen := renderLines_two_le e
  have hLne : renderLines e ≠ [] := by
    intro h
    rw [h] at hlen
    simp at hlen
  have hAne : (renderLines e).dropLast ≠ [] := by
    intro h
    have := congrArg List.length h
    rw [List.length_dropLast] at this
    simp at this
    omega
  by_cases hE : (renderLines e).getLast? = some ([] : Str)
  · have hcond : ((renderLines e).getLast?.map List.isEmpty).getD false = true := by
      rw [hE]
      rfl
    have hrender : render_desktop_entry e = joinNL (renderLines e) := by
      simp [render_desktop_entry, hcond]
    have hgl : (renderLines e).getLast hLne = ([] : Str) := by
      have h2 := List.getLast?_eq_getLast (renderLines e) hLne
      rw [h2] at hE
      injection hE
    have hsplit : renderLines e = (renderLines e).dropLast ++ [([] : Str)] := by
      conv_lhs => rw [← List.dropLast_concat_getLast hLne]
      rw [hgl]
    have hjoin : joinNL (renderLines e)
        = joinNL ((renderLines e).dropLast) ++ ['\n'] := by
      conv_lhs => rw [hsplit]
      rw [joinNL_concat _ _ hAne]
    constructor
    · rw [hrender, hjoin, trailing_concat_nl]
      omega
    · intro hnl h2
      have hAlast : ((renderLines e).dropLast).getLast? ≠ some ([] : Str) := by
        intro hx
        exact h2 ⟨hE, hx⟩
      have hAnl : ∀ l ∈ (renderLines e).dropLast, '\n' ∉ l := by
        intro l hm
        exact hnl l (List.dropLast_subset _ hm)
      obtain ⟨_, h0⟩ := joinNL_no_trailing _ hAnl hAlast hAne
      rw [hrender, hjoin, trailing_concat_nl, h0]
  · have hcond : ((renderLines e).getLast?.map List.isEmpty).getD false = false := by
      cases hx : (renderLines e).getLast? with
      | none => rfl
      | some l =>
        have hlne : l ≠ [] := by
          intro h
          rw [h] at hx
          exact hE hx
        simp [hlne]
    have hrender : render_desktop_entry e
        = joinNL (renderLines e) ++ ['\n'] := by
      simp [render_desktop_entry, hcond]
    constructor
    · rw [hrender, trailing_concat_nl]
      omega
    · intro hnl _
      obtain ⟨_, h0⟩ := joinNL_no_trailing _ hnl hE hLne
      rw [hrender, trailing_concat_nl, h0]

/-- Claim C7 (amended): the writer's output always ends with at least one
newline, and ends with exactly one provided every assembled line is a single
line and the assembled line list does not end in two blank lines — in
particular whenever the record has no other-section block ending in blank
lines. -/
theorem claim_C7_trailing_newline :
    (∀ e : StartupEntry, 1 ≤ trailingNewlines (render_desktop_entry e))
    ∧ (∀ e : StartupEntry, (∀ l ∈ renderLines e, '\n' ∉ l) →
        ¬((renderLines e).getLast? = some ([] : Str)
          ∧ ((renderLines e).dropLast).getLast? = some ([] : Str)) →
        trailingNewlines (render_desktop_entry e) = 1) :=
  ⟨fun e => (render_trailing_cases e).1, fun e => (render_trailing_cases e).2⟩

/-- The claim as frozen is false: a record whose only other-section block
ends in two blank lines renders to a text ending in two newlines. -/
theorem claim_C7_counterexample :
    trailingNewlines (render_desktop_entry blankLineEntry) ≠ 1 := by
  decide

/-- Closed instance of claim C7 at a record with no other-section blocks. -/
theorem claim_C7_witness :
    (∀ l ∈ renderLines blankEntry, '\n' ∉ l)
    ∧ trailingNewlines (render_desktop_entry blankEntry) = 1 := by
  refine ⟨by decide, ?_⟩
  exact claim_C7_trailing_newline.2 blankEntry (by decide) (by decide)

/-! ### Claim C2: no partial mutation -/

theorem toggle_selected_user (fs : FsModel) (base : Str) (w : Bool)
    (r : Option (List StartupEntry)) (entries : List StartupEntry) (idx : Nat)
    (disk : Disk) (e : StartupEntry) (hget : entries[idx]? = some e)
    (hsrc : ¬ e.source ≠ StartupSource.UserAutostart) :
    toggle_selected fs base w r entries (some idx) disk =
      (match validate_user_entry_path fs base
          (e.path.getD (path_join base (slugify e.name ++ ".desktop".toList))) with
       | .error g => ⟨some (.guard g), entries, disk⟩
       | .ok path =>
         if w then
           match r with
           | none =>
             ⟨some .ioError, entries.set idx { e with enabled := !e.enabled },
              diskWrite disk path
                (render_desktop_entry { e with enabled := !e.enabled })⟩
           | some loaded =>
             ⟨none, loaded,
              diskWrite disk path
                (render_desktop_entry { e with enabled := !e.enabled })⟩
         else
           ⟨some .ioError, entries.set idx { e with enabled := !e.enabled }, disk⟩) := by
  simp only [toggle_selected, hget]
  rw [if_neg hsrc]

theorem delete_selected_some_path (fs : FsModel) (base : Str) (w : Bool)
    (r : Option (List StartupEntry)) (entries : List StartupEntry) (idx : Nat)
    (disk : Disk) (e : StartupEntry) (p0 : Str) (hget : entries[idx]? = some e)
    (hsrc : ¬ e.source ≠ StartupSource.UserAutostart) (hpath : e.path = some p0) :
    delete_selected fs base w r entries (some idx) disk =
      (match validate_user_entry_path fs base p0 with
       | .error g => ⟨some (.guard g), entries, disk⟩
       | .ok path =>
         if w then
           match r with
           | none => ⟨some .ioError, entries, diskRemove disk path⟩
           | some loaded => ⟨none, loaded, diskRemove disk path⟩
         else ⟨some .ioError, entries, disk⟩) := by
  simp only [delete_selected, hget]
  rw [if_neg hsrc, hpath]

theorem edit_user_entry_ok_fst (fs : FsModel) (base : Str) (ro : Bool)
    (e : StartupEntry) (n c : Str) (p : Str) (disk : Disk)
    (hval : validate_user_entry_path fs base
        ((e.path).getD (path_join base (slugify n ++ ".desktop".toList))) = .ok p) :
    (edit_user_entry fs base true ro e n c e.path disk).1 = none := by
  cases hpath : e.path with
  | none =>
    rw [hpath] at hval
    simp only [Option.getD] at hval
    simp only [edit_user_entry, Option.getD, hval, eq_self_iff_true, if_true]
  | some p0 =>
    rw [hpath] at hval
    simp only [Option.getD] at hval
    simp only [edit_user_entry, Option.getD, hval, eq_self_iff_true, if_true]
    by_cases hne : p0 ≠ p
    · rw [if_pos hne]
    · rw [if_neg hne]

/-- Claim C2 (amended): selection, provenance and guard failures leave both
the in-memory collection and the disk unchanged for toggle and delete; the
disk is never left partially written — after a toggle it is unchanged or
holds one complete rendered entry, after a delete unchanged or with one file
removed; a delete never alters the collection when it errors, and edit and
create leave the disk unchanged on any error.  However, a toggle whose write
fails returns an error with the in-memory enabled flag already flipped, and
a toggle or delete whose post-mutation reload fails returns an error even
though the disk mutation was fully applied. -/
theorem claim_C2_no_partial_mutation :
    (∀ (fs : FsModel) (base : Str) (w : Bool) (r : Option (List StartupEntry))
       (entries : List StartupEntry) (disk : Disk),
      toggle_selected fs base w r entries none disk
        = ⟨some .noSelection, entries, disk⟩)
    ∧ (∀ (fs : FsModel) (base : Str) (w : Bool) (r : Option (List StartupEntry))
        (entries : List StartupEntry) (idx : Nat) (disk : Disk),
        entries[idx]? = none →
        toggle_selected fs base w r entries (some idx) disk
          = ⟨some .invalidSelection, entries, disk⟩)
    ∧ (∀ (fs : FsModel) (base : Str) (w : Bool) (r : Option (List StartupEntry))
        (entries : List StartupEntry) (idx : Nat) (disk : Disk) (e : StartupEntry),
        entries[idx]? = some e → e.source ≠ StartupSource.UserAutostart →
        toggle_selected fs base w r entries (some idx) disk
          = ⟨some .invalidOperation, entries, disk⟩)
    ∧ (∀ (fs : FsModel) (base : Str) (w : Bool) (r : Option (List StartupEntry))
        (entries : List StartupEntry) (idx : Nat) (disk : Disk) (e : StartupEntry)
        (g : GuardError),
        entries[idx]? = some e → e.source = StartupSource.UserAutostart →
        validate_user_entry_path fs base
          (e.path.getD (path_join base (slugify e.name ++ ".desktop".toList)))
          = .error g →
        toggle_selected fs base w r entries (some idx) disk
          = ⟨some (.guard g), entries, disk⟩)
    ∧ (∀ (fs : FsModel) (base : Str) (r : Option (List StartupEntry))
        (entries : List StartupEntry) (idx : Nat) (disk : Disk) (e : StartupEntry)
        (p : Str),
        entries[idx]? = some e → e.source = StartupSource.UserAutostart →
        validate_user_entry_path fs base
          (e.path.getD (path_join base (slugify e.name ++ ".desktop".toList)))
          = .ok p →
        toggle_selected fs base false r entries (some idx) disk
          = ⟨some .ioError, entries.set idx { e with enabled := !e.enabled }, disk⟩)
    ∧ (∀ (fs : FsModel) (base : Str) (entries : List StartupEntry) (idx : Nat)
        (disk : Disk) (e : StartupEntry) (p : Str),
        entries[idx]? = some e → e.source = StartupSource.UserAutostart →
        validate_user_entry_path fs base
          (e.path.getD (path_join base (slugify e.name ++ ".desktop".toList)))
          = .ok p →
        toggle_selected fs base true none entries (some idx) disk
          = ⟨some .ioError, entries.set idx { e with enabled := !e.enabled },
             diskWrite disk p (render_desktop_entry { e with enabled := !e.enabled })⟩)
    ∧ (∀ (fs : FsModel) (base : Str) (w : Bool) (r : Option (List StartupEntry))
        (entries : List StartupEntry) (sel : Option Nat) (disk : Disk),
        (toggle_selected fs base w r entries sel disk).disk = disk
        ∨ ∃ (p : Str) (e' : StartupEntry),
            (toggle_selected fs base w r entries sel disk).disk
              = diskWrite disk p (render_desktop_entry e'))
    ∧ (∀ (fs : FsModel) (base : Str) (w : Bool) (r : Option (List StartupEntry))
        (entries : List StartupEntry) (sel : Option Nat) (disk : Disk),
        (delete_selected fs base w r entries sel disk).disk = disk
        ∨ ∃ p : Str,
            (delete_selected fs base w r entries sel disk).disk = diskRemove disk p)
    ∧ (∀ (fs : FsModel) (base : Str) (r : Option (List StartupEntry))
        (entries : List StartupEntry) (idx : Nat) (disk : Disk) (e : StartupEntry)
        (p0 p : Str),
        entries[idx]? = some e → e.source = StartupSource.UserAutostart →
        e.path = some p0 → validate_user_entry_path fs base p0 = .ok p →
        delete_selected fs base false r entries (some idx) disk
          = ⟨some .ioError, entries, disk⟩)
    ∧ (∀ (fs : FsModel) (base : Str) (w : Bool) (r : Option (List StartupEntry))
        (entries : List StartupEntry) (sel : Option Nat) (disk : Disk),
        (delete_selected fs base w r entries sel disk).error.isSome = true →
        (delete_selected fs base w r entries sel disk).entries = entries)
    ∧ (∀ (fs : FsModel) (base : Str) (w ro : Bool) (entries : List StartupEntry)
        (sel : Option Nat) (n c : Str) (disk : Disk),
        (edit_selected fs base w ro entries sel n c disk).1.isSome = true →
        (edit_selected fs base w ro entries sel n c disk).2 = disk)
    ∧ (∀ (fs : FsModel) (base : Str) (mk w : Bool) (n c : Str) (disk : Disk),
        (create_user_entry fs base mk w n c disk).error.isSome = true →
        (create_user_entry fs base mk w n c disk).disk = disk) := by
  refine ⟨?_, ?_, ?_, ?_, ?_, ?_, ?_, ?_, ?_, ?_, ?_, ?_⟩
  · intro fs base w r entries disk
    rfl
  · intro fs base w r entries idx disk hget
    simp only [toggle_selected, hget]
  · intro fs base w r entries idx disk e hget hsrc
    simp only [toggle_selected, hget]
    rw [if_pos hsrc]
  · intro fs base w r entries idx disk e g hget hsrc hval
    have hn : ¬ (e.source ≠ StartupSource.UserAutostart) := by
      rw [hsrc]; exact fun hh => hh rfl
    rw [toggle_selected_user fs base w r entries idx disk e hget hn, hval]
  · intro fs base r entries idx disk e p hget hsrc hval
    have hn : ¬ (e.source ≠ StartupSource.UserAutostart) := by
      rw [hsrc]; exact fun hh => hh rfl
    rw [toggle_selected_user fs base false r entries idx disk e hget hn, hval]
    rfl
  · intro fs base entries idx disk e p hget hsrc hval
    have hn : ¬ (e.source ≠ StartupSource.UserAutostart) := by
      rw [hsrc]; exact fun hh => hh rfl
    rw [toggle_selected_user fs base true none entries idx disk e hget hn, hval]
    rfl
  · intro fs base w r entries sel disk
    cases sel with
    | none => left; rfl
    | some idx =>
      cases hget : entries[idx]? with
      | none =>
        left
        simp only [toggle_selected, hget]
      | some e =>
        by_cases hsrc : e.source ≠ StartupSource.UserAutostart
        · left
          simp only [toggle_selected, hget]
          rw [if_pos hsrc]
        · cases hval : validate_user_entry_path fs base
              (e.path.getD (path_join base (slugify e.name ++ ".desktop".toList))) with
          | error g =>
            left
            rw [toggle_selected_user fs base w r entries idx disk e hget hsrc, hval]
          | ok p =>
            cases w with
            | false =>
              left
              rw [toggle_selected_user fs base false r entries idx disk e hget hsrc,
                hval]
              rfl
            | true =>
              cases r with
              | none =>
                right
                refine ⟨p, { e with enabled := !e.enabled }, ?_⟩
                rw [toggle_selected_user fs base true none entries idx disk e hget
                  hsrc, hval]
                rfl
              | some loaded =>
                right
                refine ⟨p, { e with enabled := !e.enabled }, ?_⟩
                rw [toggle_selected_user fs base true (some loaded) entries idx disk
                  e hget hsrc, hval]
                rfl
  · intro fs base w r entries sel disk
    cases sel with
    | none => left; rfl
    | some idx =>
      cases hget : entries[idx]? with
      | none =>
        left
        simp only [delete_selected, hget]
      | some e =>
        by_cases hsrc : e.source ≠ StartupSource.UserAutostart
        · left
          simp only [delete_selected, hget]
          rw [if_pos hsrc]
        · cases hpath : e.path with
          | none =>
            left
            simp only [delete_selected, hget]
            rw [if_neg hsrc, hpath]
          | some p0 =>
            cases hval : validate_user_entry_path fs base p0 with
            | error g =>
              left
              rw [delete_selected_some_path fs base w r entries idx disk e p0 hget
                hsrc hpath, hval]
            | ok p =>
              cases w with
              | false =>
                left
                rw [delete_selected_some_path fs base false r entries idx disk e p0
                  hget hsrc hpath, hval]
                rfl
              | true =>
                cases r with
                | none =>
                  right
                  refine ⟨p, ?_⟩
                  rw [delete_selected_some_path fs base true none entries idx disk e
                    p0 hget hsrc hpath, hval]
                  rfl
                | some loaded =>
                  right
                  refine ⟨p, ?_⟩
                  rw [delete_selected_some_path fs base true (some loaded) entries
                    idx disk e p0 hget hsrc hpath, hval]
                  rfl
  · intro fs base r entries idx disk e p0 p hget hsrc hpath hval
    have hn : ¬ (e.source ≠ StartupSource.UserAutostart) := by
      rw [hsrc]; exact fun hh => hh rfl
    rw [delete_selected_some_path fs base false r entries idx disk e p0 hget hn
      hpath, hval]
    rfl
  · intro fs base w r entries sel disk
    cases sel with
    | none => intro _; rfl
    | some idx =>
      cases hget : entries[idx]? with
      | none =>
        intro _
        simp only [delete_selected, hget]
      | some e =>
        by_cases hsrc : e.source ≠ StartupSource.UserAutostart
        · intro _
          simp only [delete_selected, hget]
          rw [if_pos hsrc]
        · cases hpath : e.path with
          | none =>
            intro _
            simp only [delete_selected, hget]
            rw [if_neg hsrc, hpath]
          | some p0 =>
            cases hval : validate_user_entry_path fs base p0 with
            | error g =>
              intro _
              rw [delete_selected_some_path fs base w r entries idx disk e p0 hget
                hsrc hpath, hval]
            | ok p =>
              cases w with
              | false =>
                intro _
                rw [delete_selected_some_path fs base false r entries idx disk e p0
                  hget hsrc hpath, hval]
                rfl
              | true =>
                cases r with
                | none =>
                  intro _
                  rw [delete_selected_some_path fs base true none entries idx disk e
                    p0 hget hsrc hpath, hval]
                  rfl
                | some loaded =>
                  intro hs
                  have hnone : (delete_selected fs base true (some loaded) entries
                      (some idx) disk).error = none := by
                    rw [delete_selected_some_path fs base true (some loaded) entries
                      idx disk e p0 hget hsrc hpath, hval]
                    rfl
                  rw [hnone] at hs
                  simp at hs
  · intro fs base w ro entries sel n c disk
    cases sel with
    | none => intro _; rfl
    | some idx =>
      cases hget : entries[idx]? with
      | none =>
        intro _
        simp only [edit_selected, hget]
      | some e =>
        by_cases hsrc : e.source ≠ StartupSource.UserAutostart
        · intro _
          simp only [edit_selected, hget]
          rw [if_pos hsrc]
        · by_cases hemp : trim n = [] ∨ trim c = []
          · intro _
            simp only [edit_selected, hget]
            rw [if_neg hsrc, if_pos hemp]
          · cases hval : validate_user_entry_path fs base
                ((e.path).getD (path_join base (slugify n ++ ".desktop".toList))) with
            | error g =>
              intro _
              simp only [edit_selected, hget]
              rw [if_neg hsrc, if_neg hemp]
              simp only [edit_user_entry]
              rw [hval]
            | ok p =>
              cases w with
              | false =>
                intro _
                simp only [edit_selected, hget]
                rw [if_neg hsrc, if_neg hemp]
                simp only [edit_user_entry]
                rw [hval]
                rfl
              | true =>
                intro hs
                exfalso
                have hnone : (edit_selected fs base true ro entries (some idx)
                    n c disk).1 = none := by
                  simp only [edit_selected, hget]
                  rw [if_neg hsrc, if_neg hemp]
                  exact edit_user_entry_ok_fst fs base ro e n c p disk hval
                rw [hnone] at hs
                simp at hs
  · intro fs base mk w n c disk
    by_cases hemp : trim n = [] ∨ trim c = []
    · intro _
      simp only [create_user_entry]
      rw [if_pos hemp]
    · cases mk with
      | false =>
        intro _
        simp only [create_user_entry]
        rw [if_neg hemp]
        rfl
      | true =>
        cases hval : validate_user_entry_path fs base
            (path_join base (slugify n ++ ".desktop".toList)) with
        | error g =>
          intro _
          simp only [create_user_entry]
          rw [if_neg hemp, hval]
          rfl
        | ok p =>
          cases w with
          | false =>
            intro _
            simp only [create_user_entry]
            rw [if_neg hemp, hval]
            rfl
          | true =>
            intro hs
            exfalso
            have hnone : (create_user_entry fs base true true n c disk).error
                = none := by
              simp only [create_user_entry]
              rw [if_neg hemp, hval]
              rfl
            rw [hnone] at hs
            simp at hs

/-- The claim as frozen is false: a toggle whose file write fails returns an
error, yet the in-memory collection already holds the flipped enabled flag. -/
theorem claim_C2_counterexample :
    (toggle_selected fs0 base0 false none [userEntry] (some 0) disk0).error.isSome
      = true
    ∧ (toggle_selected fs0 base0 false none [userEntry] (some 0) disk0).entries
      ≠ [userEntry] := by
  constructor
  · decide
  · decide

/-- Closed instance of claim C2's toggle write-failure conjunct. -/
theorem claim_C2_witness :
    ([userEntry][0]? = some userEntry)
    ∧ userEntry.source = StartupSource.UserAutostart
    ∧ toggle_selected fs0 base0 false none [userEntry] (some 0) disk0
        = ⟨some .ioError,
           [userEntry].set 0 { userEntry with enabled := !userEntry.enabled },
           disk0⟩ := by
  refine ⟨rfl, rfl, ?_⟩
  exact claim_C2_no_partial_mutation.2.2.2.2.1 fs0 base0 none [userEntry] 0 disk0
    userEntry fileA rfl rfl rfl

/-! ### Claim C1: round trip -/

theorem splitNL_no_nl : ∀ l : Str, '\n' ∉ l → splitNL l = [l] := by
  intro l
  induction l with
  | nil => intro _; rfl
  | cons c rest ih =>
    intro h
    have hc : ¬ c = '\n' := fun hh => h (by simp [hh])
    have hr : '\n' ∉ rest := fun hm => h (List.mem_cons_of_mem c hm)
    simp only [splitNL, if_neg hc, ih hr]

theorem splitNL_append : ∀ (l r : Str), '\n' ∉ l →
    splitNL (l ++ '\n' :: r) = l :: splitNL r := by
  intro l
  induction l with
  | nil => intro r _; simp [splitNL]
  | cons c rest ih =>
    intro r h
    have hc : ¬ c = '\n' := fun hh => h (by simp [hh])
    have hr : '\n' ∉ rest := fun hm => h (List.mem_cons_of_mem c hm)
    simp only [List.cons_append, splitNL, if_neg hc, List.append_eq, ih r hr]

theorem splitNL_joinNL : ∀ L : List Str, (∀ l ∈ L, '\n' ∉ l) → L ≠ [] →
    splitNL (joinNL L) = L := by
  intro L
  induction L with
  | nil => intro _ h; exact absurd rfl h
  | cons a L' ih =>
    intro hmem _
    cases L' with
    | nil => exact splitNL_no_nl a (hmem a (by simp))
    | cons b B =>
      rw [joinNL_cons a (b :: B) (by simp),
        splitNL_append a (joinNL (b :: B)) (hmem a (by simp)),
        ih (fun l hl => hmem l (List.mem_cons_of_mem a hl)) (by simp)]

theorem rustLinesAux_concat_empty : ∀ L : List Str,
    rustLinesAux (L ++ [([] : Str)]) = L.map stripCR := by
  intro L
  induction L with
  | nil => rfl
  | cons p rest ih =>
    cases rest with
    | nil => rfl
    | cons q B =>
      have h1 : rustLinesAux ((p :: q :: B) ++ [([] : Str)])
          = stripCR p :: rustLinesAux ((q :: B) ++ [([] : Str)]) := rfl
      rw [h1, ih]
      rfl

theorem stripCR_eq_self (l : Str) (h : l.getLast? ≠ some '\r') : stripCR l = l := by
  unfold stripCR
  rw [if_neg h]

theorem rustLines_joinNL (L : List Str) (hnl : ∀ l ∈ L, '\n' ∉ l)
    (hcr : ∀ l ∈ L, l.getLast? ≠ some '\r') (hne : L ≠ []) :
    rustLines (joinNL L ++ ['\n']) = L := by
  have h1 : joinNL L ++ ['\n'] = joinNL (L ++ [([] : Str)]) := by
    rw [joinNL_concat L [] hne]
  rw [h1]
  unfold rustLines
  rw [splitNL_joinNL (L ++ [([] : Str)]) ?hmem (by simp), rustLinesAux_concat_empty]
  case hmem =>
    intro l hl
    rcases List.mem_append.1 hl with h | h
    · exact hnl l h
    · simp at h
      subst h
      simp
  conv_rhs => rw [← List.map_id L]
  exact List.map_congr_left (fun a ha => stripCR_eq_self a (hcr a ha))

theorem render_eq_join (e : StartupEntry)
    (hlast : (renderLines e).getLast? ≠ some ([] : Str)) :
    render_desktop_entry e = joinNL (renderLines e) ++ ['\n'] := by
  have hcond : ((renderLines e).getLast?.map List.isEmpty).getD false = false := by
    cases hx : (renderLines e).getLast? with
    | none => rfl
    | some l =>
      have hlne : l ≠ [] := fun hh => hlast (hh ▸ hx)
      simp [hlne]
  simp [render_desktop_entry, hcond]

theorem getLast?_append_right {α : Type} : ∀ (a b : List α), b ≠ [] →
    (a ++ b).getLast? = b.getLast? := by
  intro a
  induction a with
  | nil => intro b _; rfl
  | cons x xs ih =>
    intro b hb
    rw [List.cons_append]
    cases hxb : xs ++ b with
    | nil =>
      exact absurd (List.append_eq_nil.1 hxb).2 hb
    | cons y ys =>
      rw [List.getLast?_cons_cons, ← hxb, ih b hb]

theorem groupLines_eq_join : ∀ gs : List (List Str),
    (∀ g ∈ gs.dropLast, g.getLast? = some ([] : Str)) →
    groupLines gs = gs.flatten := by
  intro gs
  induction gs with
  | nil => intro _; rfl
  | cons g rest ih =>
    intro h
    cases rest with
    | nil => simp [groupLines]
    | cons g2 B =>
      have hg : g.getLast? = some ([] : Str) := by
        apply h
        simp [List.dropLast]
      have hle : lastIsEmpty g = true := by
        unfold lastIsEmpty
        rw [hg]
        rfl
      have hrest : ∀ x ∈ (g2 :: B).dropLast, x.getLast? = some ([] : Str) := by
        intro x hx
        apply h
        simp [List.dropLast] at hx ⊢
        right
        exact hx
      show (g ++ if lastIsEmpty g then [] else [[]]) ++ groupLines (g2 :: B)
          = (g :: g2 :: B).join
      rw [hle]
      simp only [if_true, List.append_nil]
      rw [ih hrest]
      rfl

theorem mem_of_getLast {α : Type} : ∀ (L : List α) (a : α), L.getLast? = some a → a ∈ L := by
  intro L
  induction L with
  | nil => intro a h; exact absurd h (by simp)
  | cons x xs ih =>
    intro a h
    cases xs with
    | nil =>
      simp only [List.getLast?_singleton, Option.some.injEq] at h
      simp [h]
    | cons y ys =>
      rw [List.getLast?_cons_cons] at h
      exact List.mem_cons_of_mem x (ih a h)

theorem getLast_of_ne_nil {α : Type} : ∀ (L : List α), L ≠ [] → ∃ a, L.getLast? = some a := by
  intro L hne
  cases h : L.getLast? with
  | none => exact absurd (List.getLast?_eq_none_iff.1 h) hne
  | some a => exact ⟨a, rfl⟩

theorem dropWhile_head_false (p : Char → Bool) :
    ∀ (X : Str) (c : Char) (t : Str), X.dropWhile p = c :: t → p c = false := by
  intro X
  induction X with
  | nil => intro c t h; exact absurd h (by simp)
  | cons x xs ih =>
    intro c t h
    by_cases hx : p x = true
    · rw [List.dropWhile_cons_of_pos hx] at h
      exact ih c t h
    · rw [List.dropWhile_cons_of_neg hx] at h
      injection h with h1 h2
      subst h1
      exact Bool.eq_false_iff.mpr hx

theorem trim_eq_imp_dropWhile (l : Str) (h : trim l = l) :
    l.dropWhile Char.isWhitespace = l := by
  have hsuf : l.dropWhile Char.isWhitespace <:+ l := List.dropWhile_suffix _
  refine hsuf.eq_of_length ?_
  have h1 : (trim l).length ≤ (l.dropWhile Char.isWhitespace).length := by
    unfold trim
    rw [List.length_reverse]
    calc ((l.dropWhile Char.isWhitespace).reverse.dropWhile Char.isWhitespace).length
        ≤ (l.dropWhile Char.isWhitespace).reverse.length :=
        (List.dropWhile_suffix _).length_le
      _ = (l.dropWhile Char.isWhitespace).length := List.length_reverse _
  have h2 : (l.dropWhile Char.isWhitespace).length ≤ l.length :=
    (List.dropWhile_suffix _).length_le
  rw [h] at h1
  omega

theorem trim_eq_imp_dropWhile_rev (l : Str) (h : trim l = l) :
    l.reverse.dropWhile Char.isWhitespace = l.reverse := by
  have h1 : (trim l).reverse = l.reverse := congrArg List.reverse h
  unfold trim at h1
  rw [List.reverse_reverse, trim_eq_imp_dropWhile l h] at h1
  exact h1

theorem head_not_ws (l : Str) (c : Char) (h : trim l = l) (hh : l.head? = some c) :
    c.isWhitespace = false := by
  cases l with
  | nil => exact absurd hh (by simp)
  | cons x xs =>
    simp only [List.head?_cons, Option.some.injEq] at hh
    subst hh
    have hd := trim_eq_imp_dropWhile _ h
    by_cases hc : x.isWhitespace = true
    · rw [List.dropWhile_cons_of_pos hc] at hd
      have := (List.dropWhile_suffix (l := xs) Char.isWhitespace).length_le
      have hlen := congrArg List.length hd
      simp at hlen
      omega
    · exact Bool.eq_false_iff.mpr hc

theorem last_not_ws (l : Str) (c : Char) (h : trim l = l) (hh : l.getLast? = some c) :
    c.isWhitespace = false := by
  have hrev : l.reverse.head? = some c := by rw [List.head?_reverse]; exact hh
  cases hr : l.reverse with
  | nil => rw [hr] at hrev; exact absurd hrev (by simp)
  | cons x xs =>
    rw [hr] at hrev
    simp only [List.head?_cons, Option.some.injEq] at hrev
    subst hrev
    have hd := trim_eq_imp_dropWhile_rev _ h
    rw [hr] at hd
    by_cases hc : x.isWhitespace = true
    · rw [List.dropWhile_cons_of_pos hc] at hd
      have := (List.dropWhile_suffix (l := xs) Char.isWhitespace).length_le
      have hlen := congrArg List.length hd
      simp at hlen
      omega
    · exact Bool.eq_false_iff.mpr hc

theorem noNL_iff (l : Str) : noNL l = true ↔ '\n' ∉ l := by
  unfold noNL
  rw [Bool.not_eq_true']
  have hc : l.contains '\n' = decide ('\n' ∈ l) := List.elem_eq_mem '\n' l
  rw [hc]
  constructor
  · intro h hm
    rw [decide_eq_false_iff_not] at h
    exact h hm
  · intro h
    rw [decide_eq_false_iff_not]
    exact h

theorem noNL_append (a b : Str) (ha : noNL a = true) (hb : noNL b = true) :
    noNL (a ++ b) = true := by
  rw [noNL_iff] at ha hb ⊢
  intro hm
  rcases List.mem_append.1 hm with h | h
  · exact ha h
  · exact hb h

theorem header_cond_iff (l : Str) :
    ((trim l).head? = some '[' ∧ (trim l).getLast? = some ']') ↔ isHeaderLine l = true := by
  simp [isHeaderLine]

theorem not_header_cond (l : Str) (hf : isHeaderLine l = false) :
    ¬ ((trim l).head? = some '[' ∧ (trim l).getLast? = some ']') := by
  intro hc
  have := (header_cond_iff l).1 hc
  rw [hf] at this
  exact Bool.false_ne_true this

theorem kv_last_not_ws (k v : Str) (hv : trim v = v) :
    ∃ d, (k ++ '=' :: v).getLast? = some d ∧ d.isWhitespace = false := by
  rw [getLast?_append_right k ('=' :: v) (by simp)]
  cases v with
  | nil => exact ⟨'=', rfl, by decide⟩
  | cons x xs =>
    obtain ⟨d, hd⟩ := getLast_of_ne_nil (x :: xs) (by simp)
    refine ⟨d, ?_, last_not_ws (x :: xs) d hv hd⟩
    rw [List.getLast?_cons_cons]
    exact hd

theorem kv_trim (k v : Str) (c : Char) (hh : (k ++ '=' :: v).head? = some c)
    (hc : c.isWhitespace = false) (hv : trim v = v) :
    trim (k ++ '=' :: v) = k ++ '=' :: v := by
  obtain ⟨d, hd, hdw⟩ := kv_last_not_ws k v hv
  exact trim_eq_self _ c d hh hc hd hdw

theorem kv_trim_of_keys (k v : Str) (hk : trim k = k) (hv : trim v = v) :
    trim (k ++ '=' :: v) = k ++ '=' :: v := by
  cases k with
  | nil => exact kv_trim [] v '=' rfl (by decide) hv
  | cons a as =>
    exact kv_trim (a :: as) v a rfl (head_not_ws (a :: as) a hk rfl) hv

theorem kv_last_not_cr (k v : Str) (hv : trim v = v) :
    (k ++ '=' :: v).getLast? ≠ some '\r' := by
  obtain ⟨d, hd, hdw⟩ := kv_last_not_ws k v hv
  rw [hd]
  intro hcontra
  have : d = '\r' := by injection hcontra
  subst this
  exact absurd hdw (by decide)

theorem mem_ite_blank (c : Prop) [Decidable c] (l : Str)
    (h : l ∈ (if c then [([] : Str)] else [])) : l = [] := by
  by_cases hc : c
  · rw [if_pos hc] at h
    simpa using h
  · rw [if_neg hc] at h
    exact absurd h (by simp)

theorem contains_false_not_mem {α : Type} [BEq α] [LawfulBEq α] (l : List α) (c : α)
    (h : l.contains c = false) : c ∉ l := by
  have hc : l.contains c = decide (c ∈ l) := List.elem_eq_mem c l
  rw [hc, decide_eq_false_iff_not] at h
  exact h

theorem wf_entry_parts (e : StartupEntry) (h : wf_entry e = true) :
    wfField e.name = true ∧ wfField e.command = true
    ∧ (∀ p ∈ e.localized_names, wfLocalized p = true)
    ∧ (∀ p ∈ e.extra, wfExtra p = true)
    ∧ (∀ l ∈ e.entry_comments, wfComment l = true)
    ∧ (∀ l ∈ e.preamble, wfPreambleLine l = true)
    ∧ (∀ g ∈ e.other_groups, wfBlock g = true)
    ∧ (∀ g ∈ e.other_groups.dropLast, g.getLast? = some ([] : Str))
    ∧ (∀ g, e.other_groups.getLast? = some g → g.getLast? ≠ some ([] : Str)) := by
  simp only [wf_entry, Bool.and_eq_true, List.all_eq_true] at h
  obtain ⟨⟨⟨⟨⟨⟨⟨⟨h1, h2⟩, h3⟩, h4⟩, h5⟩, h6⟩, h7⟩, h8⟩, h9⟩ := h
  refine ⟨h1, h2, h3, h4, h5, h6, h7, ?_, ?_⟩
  · intro g hg
    have hx := h8 g hg
    simpa using hx
  · intro g hg
    rw [hg] at h9
    simp only [Bool.not_eq_true'] at h9
    intro hc
    rw [hc] at h9
    simp at h9

theorem wfField_parts (l : Str) (h : wfField l = true) : noNL l = true ∧ trim l = l := by
  simp only [wfField, Bool.and_eq_true] at h
  exact ⟨h.1, by simpa using h.2⟩

theorem wfRawLine_parts (l : Str) (h : wfRawLine l = true) :
    noNL l = true ∧ l.getLast? ≠ some '\r' := by
  simp only [wfRawLine, Bool.and_eq_true, Bool.not_eq_true'] at h
  refine ⟨h.1, ?_⟩
  have h2 := h.2
  intro hc
  rw [hc] at h2
  simp at h2

theorem raw_ok (l : Str) (h : wfRawLine l = true) :
    '\n' ∉ l ∧ l.getLast? ≠ some '\r' :=
  ⟨(noNL_iff _).1 (wfRawLine_parts _ h).1, (wfRawLine_parts _ h).2⟩

theorem wfLocalized_parts (p : Str × Str) (h : wfLocalized p = true) :
    noNL p.1 = true ∧ '=' ∉ p.1 ∧ noNL p.2 = true ∧ trim p.2 = p.2 := by
  simp only [wfLocalized, Bool.and_eq_true, Bool.not_eq_true'] at h
  obtain ⟨⟨hn, hq⟩, hf⟩ := h
  have hfp := wfField_parts _ hf
  exact ⟨hn, contains_false_not_mem _ _ hq, hfp.1, hfp.2⟩

theorem wfExtra_parts (p : Str × Str) (h : wfExtra p = true) :
    trim p.1 = p.1 ∧ noNL p.1 = true ∧ trim p.2 = p.2 ∧ noNL p.2 = true
    ∧ '=' ∉ p.1 ∧ isHeaderLine (p.1 ++ '=' :: p.2) = false
    ∧ (trim (p.1 ++ '=' :: p.2)).head? ≠ some '#' := by
  simp only [wfExtra, Bool.and_eq_true, Bool.not_eq_true'] at h
  obtain ⟨⟨⟨⟨h1, h2⟩, h3⟩, h4⟩, h5⟩ := h
  refine ⟨(wfField_parts _ h1).2, (wfField_parts _ h1).1, (wfField_parts _ h2).2,
    (wfField_parts _ h2).1, contains_false_not_mem _ _ h3, h4, ?_⟩
  intro hc
  rw [hc] at h5
  simp at h5

theorem wfComment_parts (l : Str) (h : wfComment l = true) :
    noNL l = true ∧ l.getLast? ≠ some '\r'
    ∧ ((trim l).head? = some '#' ∨ trim l = []) := by
  simp only [wfComment, Bool.and_eq_true, Bool.or_eq_true] at h
  obtain ⟨hr, hc⟩ := h
  have hrp := wfRawLine_parts _ hr
  refine ⟨hrp.1, hrp.2, ?_⟩
  rcases hc with hc | hc
  · exact Or.inl (by simpa using hc)
  · exact Or.inr (by simpa [List.isEmpty_iff] using hc)

theorem wfBlock_parts (g : List Str) (h : wfBlock g = true) :
    ∃ hd tl, g = hd :: tl ∧ isHeaderLine hd = true ∧ wfRawLine hd = true
    ∧ trimBrackets (trim hd) ≠ desktopEntry
    ∧ (∀ l ∈ tl, wfRawLine l = true ∧ isHeaderLine l = false) := by
  cases g with
  | nil => exact absurd h (by simp [wfBlock])
  | cons hd tl =>
    simp only [wfBlock, Bool.and_eq_true, Bool.not_eq_true', List.all_eq_true] at h
    obtain ⟨⟨⟨hh, hr⟩, hne⟩, htl⟩ := h
    refine ⟨hd, tl, rfl, hh, hr, ?_, htl⟩
    intro hc
    rw [hc] at hne
    simp at hne

theorem renderLines_lines_ok (e : StartupEntry) (h : wf_entry e = true) :
    ∀ l ∈ renderLines e, '\n' ∉ l ∧ l.getLast? ≠ some '\r' := by
  obtain ⟨hname, hcmd, hloc, hex, hcom, hpre, hgrp, hsep, hfin⟩ := wf_entry_parts e h
  have hkv : ∀ (k v : Str), trim v = v → noNL k = true → noNL v = true →
      '\n' ∉ (k ++ '=' :: v) ∧ (k ++ '=' :: v).getLast? ≠ some '\r' := by
    intro k v hv hk hnv
    refine ⟨?_, kv_last_not_cr k v hv⟩
    have hev : noNL ('=' :: v) = true := by
      rw [noNL_iff] at hnv ⊢
      intro hm
      rcases List.mem_cons.1 hm with hm | hm
      · exact absurd hm (by decide)
      · exact hnv hm
    exact (noNL_iff _).1 (noNL_append k ('=' :: v) hk hev)
  simp only [renderLines]
  refine List.forall_mem_append.2 ⟨List.forall_mem_append.2
    ⟨List.forall_mem_append.2 ⟨List.forall_mem_append.2 ⟨List.forall_mem_append.2
      ⟨List.forall_mem_append.2 ⟨List.forall_mem_append.2 ⟨List.forall_mem_append.2
        ⟨List.forall_mem_append.2 ⟨?_, ?_⟩, ?_⟩, ?_⟩, ?_⟩, ?_⟩, ?_⟩, ?_⟩, ?_⟩, ?_⟩
  · intro l hl
    exact raw_ok l (by
      have := hpre l hl
      simp only [wfPreambleLine, Bool.and_eq_true] at this
      exact this.1)
  · intro l hl
    have hblank := mem_ite_blank _ l hl
    subst hblank
    exact ⟨by simp, by simp⟩
  · intro l hl
    simp only [List.mem_singleton] at hl
    subst hl
    exact ⟨by decide, by decide⟩
  · intro l hl
    exact raw_ok l (by
      have := hcom l hl
      simp only [wfComment, Bool.and_eq_true] at this
      exact this.1)
  · intro l hl
    rcases List.mem_cons.1 hl with hl | hl
    · subst hl
      exact ⟨by decide, by decide⟩
    · simp only [List.mem_singleton] at hl
      subst hl
      have heq : "Name=".toList ++ e.name = "Name".toList ++ '=' :: e.name := rfl
      rw [heq]
      exact hkv "Name".toList e.name (wfField_parts _ hname).2 (by decide)
        (wfField_parts _ hname).1
  · intro l hl
    rcases List.mem_map.1 hl with ⟨p, hp, rfl⟩
    obtain ⟨hn1, _, hn2, ht2⟩ := wfLocalized_parts p (hloc p hp)
    have heq : "Name[".toList ++ p.1 ++ ']' :: '=' :: p.2
        = ("Name[".toList ++ p.1 ++ [']']) ++ '=' :: p.2 := by
      simp
    rw [heq]
    exact hkv ("Name[".toList ++ p.1 ++ [']']) p.2 ht2
      (noNL_append _ _ (noNL_append _ _ (by decide) hn1) (by decide)) hn2
  · intro l hl
    rcases List.mem_cons.1 hl with hl | hl
    · subst hl
      have heq : "Exec=".toList ++ e.command = "Exec".toList ++ '=' :: e.command := rfl
      rw [heq]
      exact hkv "Exec".toList e.command (wfField_parts _ hcmd).2 (by decide)
        (wfField_parts _ hcmd).1
    rcases List.mem_cons.1 hl with hl | hl
    · subst hl
      have hv : trim (if e.enabled = true then "true".toList else "false".toList)
          = (if e.enabled = true then "true".toList else "false".toList) := by
        cases e.enabled <;> decide
      have hnv : noNL (if e.enabled = true then "true".toList else "false".toList)
          = true := by
        cases e.enabled <;> decide
      have heq : "X-GNOME-Autostart-enabled=".toList
            ++ (if e.enabled = true then "true".toList else "false".toList)
          = "X-GNOME-Autostart-enabled".toList
            ++ '=' :: (if e.enabled = true then "true".toList else "false".toList) := rfl
      rw [heq]
      exact hkv _ _ hv (by decide) hnv
    · simp only [List.mem_singleton] at hl
      subst hl
      have hv : trim (if e.enabled = true then "false".toList else "true".toList)
          = (if e.enabled = true then "false".toList else "true".toList) := by
        cases e.enabled <;> decide
      have hnv : noNL (if e.enabled = true then "false".toList else "true".toList)
          = true := by
        cases e.enabled <;> decide
      have heq : "Hidden=".toList
            ++ (if e.enabled = true then "false".toList else "true".toList)
          = "Hidden".toList
            ++ '=' :: (if e.enabled = true then "false".toList else "true".toList) := rfl
      rw [heq]
      exact hkv _ _ hv (by decide) hnv
  · intro l hl
    have hE : extraLines e.extra
        = (e.extra.filter (fun p => !(claimDedicatedKey p.1))).map
            (fun p => p.1 ++ '=' :: p.2) := by
      have := extraLines_eq_filter e.extra []
      simpa [extraLines] using this
    rw [hE] at hl
    rcases List.mem_map.1 hl with ⟨p, hpf, rfl⟩
    obtain ⟨_, hn1, ht2, hn2, _, _, _⟩ := wfExtra_parts p (hex p (List.mem_filter.1 hpf).1)
    exact hkv p.1 p.2 ht2 hn1 hn2
  · intro l hl
    have hblank := mem_ite_blank _ l hl
    subst hblank
    exact ⟨by simp, by simp⟩
  · rw [groupLines_eq_join e.other_groups hsep]
    intro l hl
    rcases List.mem_flatten.1 hl with ⟨g, hgm, hlg⟩
    obtain ⟨hd, tl, hgeq, _, hraw, _, htl⟩ := wfBlock_parts g (hgrp g hgm)
    subst hgeq
    rcases List.mem_cons.1 hlg with hlg | hlg
    · subst hlg
      exact raw_ok l hraw
    · exact raw_ok l (htl l hlg).1

theorem append_ne_nil_left (a v : Str) (ha : a ≠ []) : a ++ v ≠ [] := by
  intro hc
  exact ha (List.append_eq_nil.1 hc).1

theorem append_ne_nil_right {α : Type} (a b : List α) (hb : b ≠ []) : a ++ b ≠ [] := by
  intro hc
  exact hb (List.append_eq_nil.1 hc).2

theorem renderLines_getLast_ne (e : StartupEntry) (h : wf_entry e = true) :
    (renderLines e).getLast? ≠ some ([] : Str) := by
  obtain ⟨_, _, _, hex, _, _, hgrp, hsep, hfin⟩ := wf_entry_parts e h
  cases hgs : e.other_groups with
  | nil =>
    simp only [renderLines, hgs]
    simp only [show groupLines [] = [] from rfl, List.isEmpty_nil, eq_self_iff_true,
      not_true, false_and, if_false, List.append_nil]
    cases hE : extraLines e.extra with
    | nil =>
      rw [List.append_nil]
      rw [getLast?_append_right _ _ (by simp)]
      rw [List.getLast?_cons_cons, List.getLast?_cons_cons, List.getLast?_singleton]
      intro hc
      injection hc with hc
      exact append_ne_nil_left _ _ (by decide) hc
    | cons m ms =>
      rw [getLast?_append_right _ _ (by simp)]
      obtain ⟨d, hd⟩ := getLast_of_ne_nil (m :: ms) (by simp)
      rw [hd]
      intro hc
      injection hc with hc
      have hdm : d ∈ extraLines e.extra := by
        rw [hE]
        exact mem_of_getLast _ _ hd
      have hEf : extraLines e.extra
          = (e.extra.filter (fun p => !(claimDedicatedKey p.1))).map
              (fun p => p.1 ++ '=' :: p.2) := by
        have := extraLines_eq_filter e.extra []
        simpa [extraLines] using this
      rw [hEf] at hdm
      rcases List.mem_map.1 hdm with ⟨p, _, hp⟩
      rw [← hp] at hc
      exact absurd (List.append_eq_nil.1 hc).2 (by simp)
  | cons g0 grest =>
    rw [hgs] at hsep hfin hgrp
    have hne : g0 :: grest ≠ [] := by simp
    have hglmem : (g0 :: grest).getLast hne ∈ g0 :: grest := List.getLast_mem hne
    obtain ⟨hd, tl, hgeq, _, _, _, _⟩ :=
      wfBlock_parts _ (hgrp ((g0 :: grest).getLast hne) hglmem)
    have hglne : (g0 :: grest).getLast hne ≠ [] := by rw [hgeq]; simp
    have hsplit : (g0 :: grest).dropLast ++ [(g0 :: grest).getLast hne] = g0 :: grest :=
      List.dropLast_append_getLast hne
    have hjoin : (List.flatten (g0 :: grest)).getLast?
        = ((g0 :: grest).getLast hne).getLast? := by
      conv_lhs => rw [← hsplit]
      rw [List.flatten_append,
        show List.flatten [(g0 :: grest).getLast hne] = (g0 :: grest).getLast hne from by simp]
      exact getLast?_append_right _ _ hglne
    have hjne : List.flatten (g0 :: grest) ≠ [] := by
      intro hc
      have h2 : (List.flatten (g0 :: grest)).getLast? = none := by rw [hc]; rfl
      rw [hjoin] at h2
      exact hglne (List.getLast?_eq_none_iff.1 h2)
    simp only [renderLines]
    rw [hgs]
    rw [groupLines_eq_join (g0 :: grest) hsep]
    rw [getLast?_append_right _ _ hjne, hjoin]
    exact hfin ((g0 :: grest).getLast hne)
      (List.getLast?_eq_getLast (g0 :: grest) hne)

theorem rustLines_of_render (e : StartupEntry) (h : wf_entry e = true) :
    rustLines (render_desktop_entry e) = renderLines e := by
  have hlast := renderLines_getLast_ne e h
  rw [render_eq_join e hlast]
  refine rustLines_joinNL (renderLines e) (fun l hl => (renderLines_lines_ok e h l hl).1)
    (fun l hl => (renderLines_lines_ok e h l hl).2) ?_
  intro hc
  have h2 := renderLines_two_le e
  rw [hc] at h2
  simp at h2

theorem fold_preamble : ∀ (ls : List Str) (s : ParseState), s.current_group = none →
    (∀ l ∈ ls, isHeaderLine l = false) →
    List.foldl parseLine s ls = { s with preamble := s.preamble ++ ls } := by
  intro ls
  induction ls with
  | nil => intro s _ _; simp
  | cons l ls ih =>
    intro s hcg hall
    have hstep : parseLine s l = { s with preamble := s.preamble ++ [l] } := by
      simp only [parseLine, hcg]
      rw [if_neg (not_header_cond l (hall l (by simp)))]
    rw [List.foldl_cons, hstep,
      ih { s with preamble := s.preamble ++ [l] } hcg
        (fun x hx => hall x (List.mem_cons_of_mem _ hx))]
    simp

theorem parseLine_primary_header (s : ParseState) (hcg : s.current_group = none)
    (hco : s.current_other = []) :
    parseLine s ("[Desktop Entry]".toList)
      = { s with current_group := some desktopEntry, current_other := [] } := by
  simp only [parseLine, closeForHeader, hcg]
  rw [show trim "[Desktop Entry]".toList = "[Desktop Entry]".toList from by decide]
  rw [if_pos (show ("[Desktop Entry]".toList).head? = some '['
      ∧ ("[Desktop Entry]".toList).getLast? = some ']' from by decide)]
  rw [show trimBrackets "[Desktop Entry]".toList = desktopEntry from by decide]
  rw [if_pos rfl, hco]
  rw [if_neg (fun hc => hc rfl)]

theorem fold_comments : ∀ (ls : List Str) (s : ParseState),
    s.current_group = some desktopEntry →
    (∀ l ∈ ls, (trim l).head? = some '#' ∨ trim l = []) →
    List.foldl parseLine s ls = { s with entry_comments := s.entry_comments ++ ls } := by
  intro ls
  induction ls with
  | nil => intro s _ _; simp
  | cons l ls ih =>
    intro s hcg hall
    have hnh : ¬((trim l).head? = some '[' ∧ (trim l).getLast? = some ']') := by
      rcases hall l (by simp) with hc | hc
      · intro hcc
        exact absurd (hc.symm.trans hcc.1) (by decide)
      · intro hcc
        rw [hc] at hcc
        exact absurd hcc.1 (by decide)
    have hstep : parseLine s l = { s with entry_comments := s.entry_comments ++ [l] } := by
      simp only [parseLine, hcg]
      rw [if_neg hnh]
      show (if desktopEntry = desktopEntry then parseEntryLine s l (trim l)
          else { s with current_other := s.current_other ++ [l] }) = _
      rw [if_pos rfl]
      simp only [parseEntryLine]
      rw [if_pos (hall l (by simp)), hcg]
    rw [List.foldl_cons, hstep,
      ih { s with entry_comments := s.entry_comments ++ [l] } hcg
        (fun x hx => hall x (List.mem_cons_of_mem _ hx))]
    simp

theorem parseLine_kv (s : ParseState) (hcg : s.current_group = some desktopEntry)
    (k v : Str) (hk : '=' ∉ k) (ht : trim (k ++ '=' :: v) = k ++ '=' :: v)
    (hhd : ¬((k ++ '=' :: v).head? = some '[' ∧ (k ++ '=' :: v).getLast? = some ']'))
    (hnc : (k ++ '=' :: v).head? ≠ some '#') :
    parseLine s (k ++ '=' :: v) = parseKV s (trim k) (trim v) := by
  simp only [parseLine, hcg, ht]
  rw [if_neg hhd]
  show (if desktopEntry = desktopEntry then parseEntryLine s (k ++ '=' :: v) (k ++ '=' :: v)
      else { s with current_other := s.current_other ++ [k ++ '=' :: v] }) = _
  rw [if_pos rfl]
  simp only [parseEntryLine]
  rw [if_neg (not_or.2 ⟨hnc, append_ne_nil_right k ('=' :: v) (by simp)⟩)]
  simp only [splitOnceEq_append k v hk]

theorem stripPre_append : ∀ (p r : Str), stripPre p (p ++ r) = some r := by
  intro p
  induction p with
  | nil => intro r; rfl
  | cons c cs ih =>
    intro r
    simp [stripPre, ih]

theorem parseKV_name (s : ParseState) (v : Str) :
    parseKV s "Name".toList v = { s with name := v } := by
  unfold parseKV
  rw [if_pos rfl]

theorem parseKV_exec (s : ParseState) (v : Str) :
    parseKV s "Exec".toList v = { s with command := v } := by
  have hsp : stripPre "Name[".toList "Exec".toList = none := by decide
  simp only [parseKV, hsp]
  simp

theorem parseKV_hidden (s : ParseState) (v : Str) :
    parseKV s "Hidden".toList v = { s with enabled := !(v == "true".toList) } := by
  have hsp : stripPre "Name[".toList "Hidden".toList = none := by decide
  simp only [parseKV, hsp]
  simp

theorem parseKV_xg (s : ParseState) (v : Str) :
    parseKV s "X-GNOME-Autostart-enabled".toList v
      = { s with enabled := (v == "true".toList) } := by
  have hsp : stripPre "Name[".toList "X-GNOME-Autostart-enabled".toList = none := by decide
  simp only [parseKV, hsp]
  simp

theorem parseKV_type (s : ParseState) :
    parseKV s "Type".toList "Application".toList
      = { s with extra := s.extra ++ [("Type".toList, "Application".toList)] } := by
  have hsp : stripPre "Name[".toList "Type".toList = none := by decide
  simp only [parseKV, hsp]
  simp

theorem parseKV_locale (s : ParseState) (k v : Str) :
    parseKV s ("Name[".toList ++ k ++ [']']) v
      = { s with localized_names := s.localized_names ++ [(k, v)] } := by
  have hne : ("Name[".toList ++ k ++ [']']) ≠ "Name".toList := by
    intro hc
    have hlen := congrArg List.length hc
    simp [List.length_append] at hlen
  have hsp : stripPre "Name[".toList ("Name[".toList ++ k ++ [']'])
      = some (k ++ [']']) := by
    have h0 := stripPre_append "Name[".toList (k ++ [']'])
    simpa [List.append_assoc] using h0
  have hsb : stripSuffixBr (k ++ [']']) = some k := by
    unfold stripSuffixBr
    rw [if_pos (by rw [List.getLast?_concat]), List.dropLast_concat]
  simp only [parseKV, hsp, hsb]
  rw [if_neg hne]

theorem parseKV_free (s : ParseState) (k v : Str) (hded : claimDedicatedKey k = false) :
    parseKV s k v = { s with extra := s.extra ++ [(k, v)] } := by
  have hded' := hded
  simp only [claimDedicatedKey, Bool.or_eq_false_iff] at hded'
  have hmem : k ∉ knownKeys := contains_false_not_mem _ _ hded'.1
  have hsp : stripPre "Name[".toList k = none :=
    (starts_with_false_stripPre _ _).1 hded'.2
  have h1 : k ≠ "Name".toList := fun hc => hmem (by rw [hc]; simp [knownKeys])
  have h2 : k ≠ "Exec".toList := fun hc => hmem (by rw [hc]; simp [knownKeys])
  have h3 : k ≠ "Hidden".toList := fun hc => hmem (by rw [hc]; simp [knownKeys])
  have h4 : k ≠ "X-GNOME-Autostart-enabled".toList :=
    fun hc => hmem (by rw [hc]; simp [knownKeys])
  simp only [parseKV, hsp]
  rw [if_neg h1, if_neg h2, if_neg h3, if_neg h4]

theorem head_ne_of (l : Str) (c c' : Char) (h : l.head? = some c) (hne : c ≠ c') :
    l.head? ≠ some c' := by
  rw [h]
  intro hc
  injection hc with hc
  exact hne hc

theorem fold_locales : ∀ (ps : List (Str × Str)) (s : ParseState),
    s.current_group = some desktopEntry →
    (∀ p ∈ ps, wfLocalized p = true) →
    List.foldl parseLine s
        (ps.map (fun p => "Name[".toList ++ p.1 ++ ']' :: '=' :: p.2))
      = { s with localized_names := s.localized_names ++ ps } := by
  intro ps
  induction ps with
  | nil => intro s _ _; simp
  | cons p ps ih =>
    intro s hcg hall
    obtain ⟨hn1, hq1, hn2, ht2⟩ := wfLocalized_parts p (hall p (by simp))
    have hline : "Name[".toList ++ p.1 ++ ']' :: '=' :: p.2
        = ("Name[".toList ++ p.1 ++ [']']) ++ '=' :: p.2 := by simp
    have hk : '=' ∉ "Name[".toList ++ p.1 ++ [']'] := by
      intro hm
      rcases List.mem_append.1 hm with hm | hm
      · rcases List.mem_append.1 hm with hm | hm
        · exact absurd hm (by decide)
        · exact hq1 hm
      · simp at hm
    have hhead : (("Name[".toList ++ p.1 ++ [']']) ++ '=' :: p.2).head? = some 'N' := rfl
    have ht : trim (("Name[".toList ++ p.1 ++ [']']) ++ '=' :: p.2)
        = ("Name[".toList ++ p.1 ++ [']']) ++ '=' :: p.2 :=
      kv_trim _ _ 'N' hhead (by decide) ht2
    have hhd : ¬((("Name[".toList ++ p.1 ++ [']']) ++ '=' :: p.2).head? = some '['
        ∧ (("Name[".toList ++ p.1 ++ [']']) ++ '=' :: p.2).getLast? = some ']') :=
      fun hc => head_ne_of _ 'N' '[' hhead (by decide) hc.1
    have hnc := head_ne_of _ 'N' '#' hhead (by decide)
    have hktrim : trim ("Name[".toList ++ p.1 ++ [']'])
        = "Name[".toList ++ p.1 ++ [']'] :=
      trim_eq_self _ 'N' ']' rfl (by decide) (List.getLast?_concat _) (by decide)
    rw [List.map_cons, List.foldl_cons, hline,
      parseLine_kv s hcg _ _ hk ht hhd hnc, hktrim, ht2, parseKV_locale,
      ih { s with localized_names := s.localized_names ++ [(p.1, p.2)] } hcg
        (fun q hq => hall q (List.mem_cons_of_mem _ hq))]
    simp

theorem fold_extras : ∀ (xs : List (Str × Str)) (s : ParseState),
    s.current_group = some desktopEntry →
    (∀ p ∈ xs, wfExtra p = true) →
    (∀ p ∈ xs, claimDedicatedKey p.1 = false) →
    List.foldl parseLine s (xs.map (fun p => p.1 ++ '=' :: p.2))
      = { s with extra := s.extra ++ xs } := by
  intro xs
  induction xs with
  | nil => intro s _ _ _; simp
  | cons p xs ih =>
    intro s hcg hall hded
    obtain ⟨ht1, hn1, ht2, hn2, hq, hhdr, hns⟩ := wfExtra_parts p (hall p (by simp))
    have ht : trim (p.1 ++ '=' :: p.2) = p.1 ++ '=' :: p.2 := kv_trim_of_keys _ _ ht1 ht2
    have hhd := not_header_cond _ hhdr
    rw [ht] at hhd
    rw [ht] at hns
    rw [List.map_cons, List.foldl_cons,
      parseLine_kv s hcg _ _ hq ht hhd hns, ht1, ht2,
      parseKV_free s p.1 p.2 (hded p (by simp)),
      ih { s with extra := s.extra ++ [(p.1, p.2)] } hcg
        (fun q hq2 => hall q (List.mem_cons_of_mem _ hq2))
        (fun q hq2 => hded q (List.mem_cons_of_mem _ hq2))]
    simp

theorem parseLine_header_from_primary (s : ParseState) (hd : Str)
    (hcg : s.current_group = some desktopEntry)
    (hh : isHeaderLine hd = true) (hnd : trimBrackets (trim hd) ≠ desktopEntry) :
    parseLine s hd = { s with current_group := some (trimBrackets (trim hd)),
                              current_other := [hd] } := by
  simp only [parseLine, closeForHeader, hcg]
  rw [if_pos ((header_cond_iff hd).2 hh)]
  rw [if_neg hnd]
  rw [if_neg (show ¬(desktopEntry ≠ desktopEntry ∧ s.current_other ≠ [])
    from fun hc => hc.1 rfl)]
  simp [hcg]

theorem parseLine_header_from_other (s : ParseState) (hd g0 : Str)
    (hcg : s.current_group = some g0) (hg0 : g0 ≠ desktopEntry)
    (hco : s.current_other ≠ [])
    (hh : isHeaderLine hd = true) (hnd : trimBrackets (trim hd) ≠ desktopEntry) :
    parseLine s hd
      = { s with other_groups := s.other_groups ++ [s.current_other],
                 current_group := some (trimBrackets (trim hd)),
                 current_other := [hd] } := by
  simp only [parseLine, closeForHeader, hcg]
  rw [if_pos ((header_cond_iff hd).2 hh)]
  rw [if_neg hnd]
  rw [if_pos (show g0 ≠ desktopEntry ∧ s.current_other ≠ [] from And.intro hg0 hco)]
  simp [hcg]

theorem fold_body : ∀ (ls : List Str) (s : ParseState) (g0 : Str),
    s.current_group = some g0 → g0 ≠ desktopEntry →
    (∀ l ∈ ls, isHeaderLine l = false) →
    List.foldl parseLine s ls = { s with current_other := s.current_other ++ ls } := by
  intro ls
  induction ls with
  | nil => intro s g0 _ _ _; simp
  | cons l ls ih =>
    intro s g0 hcg hg0 hall
    have hstep : parseLine s l = { s with current_other := s.current_other ++ [l] } := by
      simp only [parseLine, hcg]
      rw [if_neg (not_header_cond l (hall l (by simp)))]
      rw [if_neg hg0]
    rw [List.foldl_cons, hstep,
      ih { s with current_other := s.current_other ++ [l] } g0 hcg hg0
        (fun x hx => hall x (List.mem_cons_of_mem _ hx))]
    simp

theorem fold_blocks_open : ∀ (gs : List (List Str)) (s : ParseState) (g0 : Str),
    s.current_group = some g0 → g0 ≠ desktopEntry → s.current_other ≠ [] →
    (∀ g ∈ gs, wfBlock g = true) →
    ((parseFinish (List.foldl parseLine s gs.flatten)).name = s.name
    ∧ (parseFinish (List.foldl parseLine s gs.flatten)).command = s.command
    ∧ (parseFinish (List.foldl parseLine s gs.flatten)).enabled = s.enabled
    ∧ (parseFinish (List.foldl parseLine s gs.flatten)).extra = s.extra
    ∧ (parseFinish (List.foldl parseLine s gs.flatten)).localized_names
        = s.localized_names
    ∧ (parseFinish (List.foldl parseLine s gs.flatten)).other_groups
        = s.other_groups ++ s.current_other :: gs) := by
  intro gs
  induction gs with
  | nil =>
    intro s g0 hcg hg0 hco _
    have hfin : parseFinish s
        = { s with other_groups := s.other_groups ++ [s.current_other] } := by
      simp only [parseFinish, hcg]
      rw [if_pos (show g0 ≠ desktopEntry ∧ s.current_other ≠ [] from And.intro hg0 hco)]
    rw [show (([] : List (List Str)).flatten) = ([] : List Str) from rfl,
      List.foldl_nil, hfin]
    exact ⟨rfl, rfl, rfl, rfl, rfl, by simp⟩
  | cons g rest ih =>
    intro s g0 hcg hg0 hco hwf
    obtain ⟨hd, tl, hgeq, hh, _, hnd, htl⟩ := wfBlock_parts g (hwf g (by simp))
    subst hgeq
    rw [show ((hd :: tl) :: rest).flatten = hd :: (tl ++ rest.flatten) from by simp]
    rw [List.foldl_cons, parseLine_header_from_other s hd g0 hcg hg0 hco hh hnd]
    rw [List.foldl_append]
    rw [fold_body tl _ (trimBrackets (trim hd)) rfl hnd (fun x hx => (htl x hx).2)]
    have hres := ih
        { s with other_groups := s.other_groups ++ [s.current_other],
                 current_group := some (trimBrackets (trim hd)),
                 current_other := [hd] ++ tl }
        (trimBrackets (trim hd)) rfl hnd (by simp)
        (fun q hq => hwf q (List.mem_cons_of_mem _ hq))
    exact ⟨hres.1, hres.2.1, hres.2.2.1, hres.2.2.2.1, hres.2.2.2.2.1,
      hres.2.2.2.2.2.trans (by simp)⟩

theorem fold_blocks_primary : ∀ (gs : List (List Str)) (s : ParseState),
    s.current_group = some desktopEntry → s.current_other = [] →
    (∀ g ∈ gs, wfBlock g = true) →
    ((parseFinish (List.foldl parseLine s gs.flatten)).name = s.name
    ∧ (parseFinish (List.foldl parseLine s gs.flatten)).command = s.command
    ∧ (parseFinish (List.foldl parseLine s gs.flatten)).enabled = s.enabled
    ∧ (parseFinish (List.foldl parseLine s gs.flatten)).extra = s.extra
    ∧ (parseFinish (List.foldl parseLine s gs.flatten)).localized_names
        = s.localized_names
    ∧ (parseFinish (List.foldl parseLine s gs.flatten)).other_groups
        = s.other_groups ++ gs) := by
  intro gs s hcg hco hwf
  cases gs with
  | nil =>
    have hfin : parseFinish s = s := by
      simp only [parseFinish, hcg]
      rw [if_neg (fun hc => hc.1 rfl)]
    rw [show (([] : List (List Str)).flatten) = ([] : List Str) from rfl,
      List.foldl_nil, hfin]
    exact ⟨rfl, rfl, rfl, rfl, rfl, by simp⟩
  | cons g rest =>
    obtain ⟨hd, tl, hgeq, hh, _, hnd, htl⟩ := wfBlock_parts g (hwf g (by simp))
    subst hgeq
    rw [show ((hd :: tl) :: rest).flatten = hd :: (tl ++ rest.flatten) from by simp]
    rw [List.foldl_cons, parseLine_header_from_primary s hd hcg hh hnd]
    rw [List.foldl_append]
    rw [fold_body tl _ (trimBrackets (trim hd)) rfl hnd (fun x hx => (htl x hx).2)]
    have hres := fold_blocks_open rest
        { s with current_group := some (trimBrackets (trim hd)),
                 current_other := [hd] ++ tl }
        (trimBrackets (trim hd)) rfl hnd (by simp)
        (fun q hq => hwf q (List.mem_cons_of_mem _ hq))
    exact ⟨hres.1, hres.2.1, hres.2.2.1, hres.2.2.2.1, hres.2.2.2.2.1,
      hres.2.2.2.2.2.trans (by simp)⟩

theorem parseLine_type_line (s : ParseState)
    (hcg : s.current_group = some desktopEntry) :
    parseLine s "Type=Application".toList
      = { s with extra := s.extra ++ [("Type".toList, "Application".toList)] } := by
  have heq : "Type=Application".toList
      = "Type".toList ++ '=' :: "Application".toList := rfl
  rw [heq, parseLine_kv s hcg "Type".toList "Application".toList (by decide) (by decide)
    (by decide) (by decide),
    show trim "Type".toList = "Type".toList from by decide,
    show trim "Application".toList = "Application".toList from by decide, parseKV_type]

theorem parseLine_name_line (s : ParseState)
    (hcg : s.current_group = some desktopEntry) (v : Str) (hv : trim v = v) :
    parseLine s ("Name=".toList ++ v) = { s with name := v } := by
  have heq : "Name=".toList ++ v = "Name".toList ++ '=' :: v := rfl
  rw [heq, parseLine_kv s hcg "Name".toList v (by decide)
    (kv_trim_of_keys _ _ (by decide) hv)
    (fun hc => head_ne_of ("Name".toList ++ '=' :: v) 'N' '[' rfl (by decide) hc.1)
    (head_ne_of ("Name".toList ++ '=' :: v) 'N' '#' rfl (by decide)),
    show trim "Name".toList = "Name".toList from by decide, hv, parseKV_name]

theorem parseLine_exec_line (s : ParseState)
    (hcg : s.current_group = some desktopEntry) (v : Str) (hv : trim v = v) :
    parseLine s ("Exec=".toList ++ v) = { s with command := v } := by
  have heq : "Exec=".toList ++ v = "Exec".toList ++ '=' :: v := rfl
  rw [heq, parseLine_kv s hcg "Exec".toList v (by decide)
    (kv_trim_of_keys _ _ (by decide) hv)
    (fun hc => head_ne_of ("Exec".toList ++ '=' :: v) 'E' '[' rfl (by decide) hc.1)
    (head_ne_of ("Exec".toList ++ '=' :: v) 'E' '#' rfl (by decide)),
    show trim "Exec".toList = "Exec".toList from by decide, hv, parseKV_exec]

theorem parseLine_xg_line (s : ParseState)
    (hcg : s.current_group = some desktopEntry) (v : Str) (hv : trim v = v) :
    parseLine s ("X-GNOME-Autostart-enabled=".toList ++ v)
      = { s with enabled := (v == "true".toList) } := by
  have heq : "X-GNOME-Autostart-enabled=".toList ++ v
      = "X-GNOME-Autostart-enabled".toList ++ '=' :: v := rfl
  rw [heq, parseLine_kv s hcg "X-GNOME-Autostart-enabled".toList v (by decide)
    (kv_trim_of_keys _ _ (by decide) hv)
    (fun hc => head_ne_of ("X-GNOME-Autostart-enabled".toList ++ '=' :: v) 'X' '[' rfl
      (by decide) hc.1)
    (head_ne_of ("X-GNOME-Autostart-enabled".toList ++ '=' :: v) 'X' '#' rfl (by decide)),
    show trim "X-GNOME-Autostart-enabled".toList
      = "X-GNOME-Autostart-enabled".toList from by decide, hv, parseKV_xg]

theorem parseLine_hidden_line (s : ParseState)
    (hcg : s.current_group = some desktopEntry) (v : Str) (hv : trim v = v) :
    parseLine s ("Hidden=".toList ++ v)
      = { s with enabled := !(v == "true".toList) } := by
  have heq : "Hidden=".toList ++ v = "Hidden".toList ++ '=' :: v := rfl
  rw [heq, parseLine_kv s hcg "Hidden".toList v (by decide)
    (kv_trim_of_keys _ _ (by decide) hv)
    (fun hc => head_ne_of ("Hidden".toList ++ '=' :: v) 'H' '[' rfl (by decide) hc.1)
    (head_ne_of ("Hidden".toList ++ '=' :: v) 'H' '#' rfl (by decide)),
    show trim "Hidden".toList = "Hidden".toList from by decide, hv, parseKV_hidden]

theorem parseLine_xg_enabled (s : ParseState)
    (hcg : s.current_group = some desktopEntry) (b : Bool) :
    parseLine s ("X-GNOME-Autostart-enabled=".toList
        ++ (if b = true then "true".toList else "false".toList))
      = { s with enabled := b } := by
  cases b
  · rw [parseLine_xg_line s hcg _ (by decide),
      show (((if false = true then "true".toList else "false".toList))
        == "true".toList) = false from by decide]
  · rw [parseLine_xg_line s hcg _ (by decide),
      show (((if true = true then "true".toList else "false".toList))
        == "true".toList) = true from by decide]

theorem parseLine_hidden_enabled (s : ParseState)
    (hcg : s.current_group = some desktopEntry) (b : Bool) :
    parseLine s ("Hidden=".toList
        ++ (if b = true then "false".toList else "true".toList))
      = { s with enabled := b } := by
  cases b
  · rw [parseLine_hidden_line s hcg _ (by decide),
      show (!(((if false = true then "false".toList else "true".toList))
        == "true".toList)) = false from by decide]
  · rw [parseLine_hidden_line s hcg _ (by decide),
      show (!(((if true = true then "false".toList else "true".toList))
        == "true".toList)) = true from by decide]

theorem fold_blocks_primary_gl (gs : List (List Str)) (s : ParseState)
    (hcg : s.current_group = some desktopEntry) (hco : s.current_other = [])
    (hwf : ∀ g ∈ gs, wfBlock g = true)
    (hsep2 : ∀ g ∈ gs.dropLast, g.getLast? = some ([] : Str)) :
    ((parseFinish (List.foldl parseLine s (groupLines gs))).name = s.name
    ∧ (parseFinish (List.foldl parseLine s (groupLines gs))).command = s.command
    ∧ (parseFinish (List.foldl parseLine s (groupLines gs))).enabled = s.enabled
    ∧ (parseFinish (List.foldl parseLine s (groupLines gs))).extra = s.extra
    ∧ (parseFinish (List.foldl parseLine s (groupLines gs))).localized_names
        = s.localized_names
    ∧ (parseFinish (List.foldl parseLine s (groupLines gs))).other_groups
        = s.other_groups ++ gs) := by
  rw [groupLines_eq_join gs hsep2]
  exact fold_blocks_primary gs s hcg hco hwf

set_option maxHeartbeats 2000000 in
theorem parse_render_state (e : StartupEntry) (h : wf_entry e = true) :
    (parseFinish (List.foldl parseLine initState (renderLines e))).name = e.name
    ∧ (parseFinish (List.foldl parseLine initState (renderLines e))).command = e.command
    ∧ (parseFinish (List.foldl parseLine initState (renderLines e))).enabled = e.enabled
    ∧ (parseFinish (List.foldl parseLine initState (renderLines e))).extra
        = ("Type".toList, "Application".toList)
          :: e.extra.filter (fun p => !(claimDedicatedKey p.1))
    ∧ (parseFinish (List.foldl parseLine initState (renderLines e))).localized_names
        = e.localized_names
    ∧ (parseFinish (List.foldl parseLine initState (renderLines e))).other_groups
        = e.other_groups := by
  obtain ⟨hname, hcmd, hloc, hex, hcom, hpre, hgrp, hsep, hfin⟩ := wf_entry_parts e h
  have hnameT := (wfField_parts _ hname).2
  have hcmdT := (wfField_parts _ hcmd).2
  have hEf : extraLines e.extra
      = (e.extra.filter (fun p => !(claimDedicatedKey p.1))).map
          (fun p => p.1 ++ '=' :: p.2) := by
    have h0 := extraLines_eq_filter e.extra []
    simpa [extraLines] using h0
  have hVg : trim (if e.enabled = true then "true".toList else "false".toList)
      = (if e.enabled = true then "true".toList else "false".toList) := by
    cases e.enabled <;> decide
  have hVh : trim (if e.enabled = true then "false".toList else "true".toList)
      = (if e.enabled = true then "false".toList else "true".toList) := by
    cases e.enabled <;> decide
  simp only [renderLines, List.foldl_append, List.foldl_cons, List.foldl_nil]
  rw [hEf]
  rw [fold_preamble e.preamble initState rfl
      (fun l hl => by
        have hx := hpre l hl
        simp only [wfPreambleLine, Bool.and_eq_true, Bool.not_eq_true'] at hx
        exact hx.2)]
  rw [fold_preamble
      (if (e.preamble.getLast?.map (fun s => !s.isEmpty)).getD false = true
        then [([] : Str)] else []) _ rfl
      (fun l hl => by rw [mem_ite_blank _ l hl]; decide)]
  rw [parseLine_primary_header _ rfl rfl]
  rw [fold_comments e.entry_comments _ rfl
      (fun l hl => (wfComment_parts l (hcom l hl)).2.2)]
  rw [parseLine_type_line _ rfl]
  rw [parseLine_name_line _ rfl e.name hnameT]
  rw [fold_locales e.localized_names _ rfl hloc]
  rw [parseLine_exec_line _ rfl e.command hcmdT]
  rw [parseLine_xg_enabled _ rfl e.enabled]
  rw [parseLine_hidden_enabled _ rfl e.enabled]
  rw [fold_extras (e.extra.filter (fun p => !(claimDedicatedKey p.1))) _ rfl
      (fun p hp => hex p (List.mem_filter.1 hp).1)
      (fun p hp => by
        have hb := (List.mem_filter.1 hp).2
        simpa using hb)]
  rw [fold_comments (ite _ [([] : Str)] []) _ rfl
      (fun l hl => by rw [mem_ite_blank _ l hl]; exact Or.inr rfl)]
  refine ⟨((fold_blocks_primary_gl e.other_groups _ rfl rfl hgrp hsep).1).trans ?_,
    ((fold_blocks_primary_gl e.other_groups _ rfl rfl hgrp hsep).2.1).trans ?_,
    ((fold_blocks_primary_gl e.other_groups _ rfl rfl hgrp hsep).2.2.1).trans ?_,
    ((fold_blocks_primary_gl e.other_groups _ rfl rfl hgrp hsep).2.2.2.1).trans ?_,
    ((fold_blocks_primary_gl e.other_groups _ rfl rfl hgrp hsep).2.2.2.2.1).trans ?_,
    ((fold_blocks_primary_gl e.other_groups _ rfl rfl hgrp hsep).2.2.2.2.2).trans ?_⟩
  · rfl
  · rfl
  · rfl
  · rfl
  · rfl
  · rfl

/-- The claim as frozen is false: the writer always emits the
`Type=Application` marker, which the parser stores in `unrecognized_fields`,
so even the plainest record comes back with an extra `("Type",
"Application")` pair rather than its own `unrecognized_fields`. -/
theorem claim_C1_counterexample :
    ¬ ((parse_desktop_file StartupSource.UserAutostart "p".toList
        (render_desktop_entry blankEntry)).extra = blankEntry.extra) := by
  decide

/-- Claim C1 (amended): for every well-formed record (single-line
trim-invariant structured fields, unrecognized pairs with equals-free keys
whose rendered lines are neither headers nor comments, comment and preamble
lines that reparse in their original roles, verbatim other-section blocks of
which every non-final one ends in a blank line and the final one does not),
reparsing the rendered text preserves `name`, `command`, `enabled`,
`localized_names` and `other_sections`, and yields as `unrecognized_fields`
the pair `("Type", "Application")` followed by exactly the original
unrecognized pairs whose key is not one of the dedicated keys. -/
theorem claim_C1_roundtrip (source : StartupSource) (path : Str) (e : StartupEntry)
    (h : wf_entry e = true) :
    (parse_desktop_file source path (render_desktop_entry e)).name = e.name
    ∧ (parse_desktop_file source path (render_desktop_entry e)).command = e.command
    ∧ (parse_desktop_file source path (render_desktop_entry e)).enabled = e.enabled
    ∧ (parse_desktop_file source path (render_desktop_entry e)).localized_names
        = e.localized_names
    ∧ (parse_desktop_file source path (render_desktop_entry e)).other_groups
        = e.other_groups
    ∧ (parse_desktop_file source path (render_desktop_entry e)).extra
        = ("Type".toList, "Application".toList)
          :: e.extra.filter (fun p => !(claimDedicatedKey p.1)) := by
  have hrl := rustLines_of_render e h
  have hst := parse_render_state e h
  refine ⟨?_, ?_, ?_, ?_, ?_, ?_⟩
  · show (parseFinish (List.foldl parseLine initState
        (rustLines (render_desktop_entry e)))).name = e.name
    rw [hrl]
    exact hst.1
  · show (parseFinish (List.foldl parseLine initState
        (rustLines (render_desktop_entry e)))).command = e.command
    rw [hrl]
    exact hst.2.1
  · show (parseFinish (List.foldl parseLine initState
        (rustLines (render_desktop_entry e)))).enabled = e.enabled
    rw [hrl]
    exact hst.2.2.1
  · show (parseFinish (List.foldl parseLine initState
        (rustLines (render_desktop_entry e)))).localized_names = e.localized_names
    rw [hrl]
    exact hst.2.2.2.2.1
  · show (parseFinish (List.foldl parseLine initState
        (rustLines (render_desktop_entry e)))).other_groups = e.other_groups
    rw [hrl]
    exact hst.2.2.2.2.2
  · show (parseFinish (List.foldl parseLine initState
        (rustLines (render_desktop_entry e)))).extra
      = ("Type".toList, "Application".toList)
        :: e.extra.filter (fun p => !(claimDedicatedKey p.1))
    rw [hrl]
    exact hst.2.2.2.1

/-- Closed instance of amended claim C1 at a record exercising every
preserved field: a disabled entry with extras (one carrying the dedicated
key `Name`), a localized name, comments, a preamble and two other-section
blocks. -/
theorem claim_C1_witness :
    wf_entry richEntry = true
    ∧ ((parse_desktop_file StartupSource.UserAutostart "p".toList
          (render_desktop_entry richEntry)).name = richEntry.name
      ∧ (parse_desktop_file StartupSource.UserAutostart "p".toList
          (render_desktop_entry richEntry)).command = richEntry.command
      ∧ (parse_desktop_file StartupSource.UserAutostart "p".toList
          (render_desktop_entry richEntry)).enabled = richEntry.enabled
      ∧ (parse_desktop_file StartupSource.UserAutostart "p".toList
          (render_desktop_entry richEntry)).localized_names
            = richEntry.localized_names
      ∧ (parse_desktop_file StartupSource.UserAutostart "p".toList
          (render_desktop_entry richEntry)).other_groups = richEntry.other_groups
      ∧ (parse_desktop_file StartupSource.UserAutostart "p".toList
          (render_desktop_entry richEntry)).extra
            = ("Type".toList, "Application".toList)
              :: richEntry.extra.filter (fun p => !(claimDedicatedKey p.1))) :=
  ⟨by decide,
    claim_C1_roundtrip StartupSource.UserAutostart "p".toList richEntry (by decide)⟩

end USM
